import Mathlib

/-!
Verification of the Calcora rule-based step-decomposition engine.

This file gives a shallow embedding of the engine core found in
`src/calcora/engine` (models, validation, step engine) and
`src/calcora/plugins` (registry), together with theorems settling the
specification claims about it.

Modelling conventions:
- Python `StepGraph` is an append-only list of nodes; we embed it as
  `List StepNode`.
- Python exceptions become `Except String` results; the message strings
  mirror the source messages (quotes dropped).
- The SymPy algebra backend is an external collaborator of the core; it is
  embedded as a `Backend` record of abstract parse/print/simplify
  functions over a concrete expression tree `SExpr` that mirrors the
  SymPy node shapes the rules inspect.  Rule `match`/`apply` functions are
  total Lean functions (a raising match in Python corresponds to a path no
  claim exercises).
-/

namespace Calcora

/-- Metadata values of a StepNode metadata map (Python dict values that the
engine observes: booleans, strings, and nested maps). -/
inductive MVal where
  | b : Bool → MVal
  | s : String → MVal
  | m : List (String × MVal) → MVal

/-- Embeds `StepNode` from `engine/models.py`: id, operation, rule name,
input/output texts, explanation, ordered dependency ids, metadata map. -/
structure StepNode where
  id : String
  operation : String
  rule : String
  input : String
  output : String
  explanation : String
  dependencies : List String
  metadata : List (String × MVal)

/-- Embeds `StepGraph.nodes` (the ordered node list). -/
abbrev StepGraph := List StepNode

/-- Embeds `EngineResult` from `engine/models.py`. -/
structure EngineResult where
  operation : String
  input : String
  output : String
  graph : StepGraph

/-- Python `metadata.get("noop") is True`. -/
def metaNoop (md : List (String × MVal)) : Bool :=
  match md.lookup "noop" with
  | some (MVal.b true) => true
  | _ => false

/-- Embeds `validate_step_node` from `engine/validation.py`.  The Python
checks `node.input is None or node.output is None` can never fire for the
pydantic-typed model (both fields are `str`), so they have no counterpart
on the typed embedding. -/
def validateStepNode (n : StepNode) : Except String Unit :=
  if n.id = "" then .error "StepNode.id must be non-empty"
  else if n.operation = "" then .error "StepNode.operation must be non-empty"
  else if n.rule = "" then .error "StepNode.rule must be non-empty"
  else .ok ()

/-- First phase of `validate_step_graph`: per-node validation and duplicate
id detection, accumulating the set of seen ids (kept in insertion order). -/
def checkNodes : List StepNode → List String → Except String (List String)
  | [], seen => .ok seen
  | n :: rest, seen =>
    match validateStepNode n with
    | .error e => .error e
    | .ok _ =>
      if n.id ∈ seen then .error ("Duplicate StepNode id: " ++ n.id)
      else checkNodes rest (seen ++ [n.id])

/-- First dependency of the list that is not among the seen ids. -/
def firstMissing (seen : List String) : List String → Option String
  | [] => none
  | d :: ds => if d ∈ seen then firstMissing seen ds else some d

/-- Second phase of `validate_step_graph`: every dependency id must be a
member of the seen id set. -/
def checkDeps (seen : List String) : List StepNode → Except String Unit
  | [] => .ok ()
  | n :: rest =>
    match firstMissing seen n.dependencies with
    | some d => .error ("Unknown dependency " ++ d ++ " referenced by " ++ n.id)
    | none => checkDeps seen rest

/-- The edge list `dep -> node.id` built by `validate_step_graph`
(outer loop over nodes, inner loop over dependencies, in order and with
multiplicity, exactly as the Python code appends). -/
def buildEdges (g : StepGraph) : List (String × String) :=
  (g.map (fun n => n.dependencies.map (fun d => (d, n.id)))).flatten

/-- `edges[a]` of the Python code: successors of `a` in append order. -/
def succsOf (E : List (String × String)) (a : String) : List String :=
  (E.filter (fun e => decide (e.1 = a))).map (fun e => e.2)

/-- `indegree[x]` as initialised by the Python code: the number of edges
into `x`, with multiplicity. -/
def indegInit (E : List (String × String)) (x : String) : Int :=
  ((E.filter (fun e => decide (e.2 = x))).length : Int)

/-- Inner loop of Kahn traversal: decrement the indegree of each successor,
enqueueing (FIFO) any successor whose indegree reaches exactly 0. -/
def processSuccs : List String → List String → (String → Int) → List String × (String → Int)
  | [], q, indeg => (q, indeg)
  | t :: rest, q, indeg =>
    processSuccs rest (if indeg t - 1 = 0 then q ++ [t] else q)
      (fun x => if x = t then indeg t - 1 else indeg x)

/-- The Kahn while-loop of `validate_step_graph`, counting fully processed
nodes.  The Python loop runs until the queue empties; the fuel argument is
a bound on the number of pops, shown sufficient (`kahn_complete` below)
when called with `seen.length + 1` from the initial state the validator
builds. -/
def kahnLoop (succ : String → List String) : Nat → List String → (String → Int) → Nat → Nat
  | 0, _, _, visited => visited
  | _ + 1, [], _, visited => visited
  | fuel + 1, nid :: q, indeg, visited =>
    let p := processSuccs (succ nid) q indeg
    kahnLoop succ fuel p.1 p.2 (visited + 1)

/-- Embeds `validate_step_graph` from `engine/validation.py`: duplicate-id
and well-formedness scan, dependency-existence scan, then cycle detection
via Kahn traversal (`visited ≠ number of ids` signals a cycle).  The
Python iteration order over the set `seen` is unspecified; the embedding
uses insertion order (the visited count is order-independent, as the
correctness theorems below show). -/
def validateStepGraph (g : StepGraph) : Except String Unit :=
  match checkNodes g [] with
  | .error e => .error e
  | .ok seen =>
    match checkDeps seen g with
    | .error e => .error e
    | .ok _ =>
      let E := buildEdges g
      let indeg := indegInit E
      let q := seen.filter (fun x => decide (indeg x = 0))
      let visited := kahnLoop (succsOf E) (seen.length + 1) q indeg 0
      if visited = seen.length then .ok () else .error "Cycle detected in StepGraph"

/-- The dependency relation of a step graph: `DepRel g a b` when some node
of `g` with id `b` lists `a` among its dependencies (the direction of the
edges the validator builds). -/
def DepRel (g : StepGraph) (a b : String) : Prop :=
  ∃ n, n ∈ g ∧ n.id = b ∧ a ∈ n.dependencies

/-- Declarative acyclicity of the dependency relation. -/
def AcyclicGraph (g : StepGraph) : Prop :=
  ∀ x, ¬ Relation.TransGen (DepRel g) x x

/-! ## Plugin registry (src/calcora/plugins/registry.py) -/

/-- The value of a rule application.  Python rules mutate the shared graph
and return `(output, explanation, dependency_ids, metadata)`; the
embedding returns the post-application node list explicitly. -/
structure ApplyOut where
  graph : StepGraph
  output : String
  explanation : String
  deps : List String
  metadata : List (String × MVal)

/-- A registered rule: name, operation tag, priority, match predicate and
application function (`RegisteredRule` over a `RulePlugin`). -/
structure Rule where
  name : String
  operation : String
  priority : Int
  matchFn : String → Bool
  apply : String → StepGraph → ApplyOut

/-- The registry rule list, in registration order. -/
abbrev Registry := List Rule

/-- Stable insert for descending priority: an element being inserted was
registered earlier than the already-sorted tail, so it goes before any
element of equal priority. -/
def insertByPriority (r : Rule) : List Rule → List Rule
  | [] => [r]
  | x :: xs => if r.priority < x.priority then x :: insertByPriority r xs else r :: x :: xs

/-- Stable sort by descending priority (Python
`sorted(key=priority, reverse=True)`, which keeps registration order among
equal priorities). -/
def sortRulesDesc : List Rule → List Rule
  | [] => []
  | x :: xs => insertByPriority x (sortRulesDesc xs)

/-- Embeds `PluginRegistry.list_rules`: the rules tagged with the
operation, by descending priority, ties in registration order. -/
def listRules (reg : Registry) (operation : String) : List Rule :=
  sortRulesDesc (reg.filter (fun r => decide (r.operation = operation)))

/-- Embeds `PluginRegistry.select_rule`: first rule of `list_rules` whose
match predicate holds. -/
def selectRule (reg : Registry) (operation expression : String) : Option Rule :=
  (listRules reg operation).find? (fun r => r.matchFn expression)

/-! ## Expression trees and the algebra backend -/

/-- Concrete tree mirroring the SymPy node shapes the engine and the
embedded rules inspect: integers, symbols, sums, products, powers, unary
function applications, and unevaluated `Derivative(e, (v, n))` markers. -/
inductive SExpr where
  | int : Int → SExpr
  | sym : String → SExpr
  | add : SExpr → SExpr → SExpr
  | mul : SExpr → SExpr → SExpr
  | pow : SExpr → SExpr → SExpr
  | fn : String → SExpr → SExpr
  | deriv : SExpr → String → Nat → SExpr
deriving DecidableEq

/-- Plain text printer for `SExpr`, modelling `str()` of the backend
expression (`Derivative(e, v)` for first order, `Derivative(e, (v, n))`
for higher order). -/
def printSE : SExpr → String
  | .int i => toString i
  | .sym s => s
  | .add a b => printSE a ++ " + " ++ printSE b
  | .mul a b => printSE a ++ "*" ++ printSE b
  | .pow a b => printSE a ++ "**" ++ printSE b
  | .fn f a => f ++ "(" ++ printSE a ++ ")"
  | .deriv e v n =>
    if n = 1 then "Derivative(" ++ printSE e ++ ", " ++ v ++ ")"
    else "Derivative(" ++ printSE e ++ ", (" ++ v ++ ", " ++ toString n ++ "))"

/-- Free symbols of an expression (`free_symbols`). -/
def freeSymbols : SExpr → List String
  | .int _ => []
  | .sym s => [s]
  | .add a b => freeSymbols a ++ freeSymbols b
  | .mul a b => freeSymbols a ++ freeSymbols b
  | .pow a b => freeSymbols a ++ freeSymbols b
  | .fn _ a => freeSymbols a
  | .deriv e v _ => freeSymbols e ++ [v]

/-- `expr.has(Derivative)`: some `deriv` node occurs in the tree. -/
def hasDeriv : SExpr → Bool
  | .int _ => false
  | .sym _ => false
  | .add a b => hasDeriv a || hasDeriv b
  | .mul a b => hasDeriv a || hasDeriv b
  | .pow a b => hasDeriv a || hasDeriv b
  | .fn _ a => hasDeriv a
  | .deriv _ _ _ => true

/-- `_get_derivative_var`: the first differentiation variable of a
`Derivative` node, if any. -/
def derivVar : SExpr → Option String
  | .deriv _ v n => if n = 0 then none else some v
  | _ => none

/-- The inner expression of a `Derivative` node (`d.expr`). -/
def derivInner : SExpr → SExpr
  | .deriv e _ _ => e
  | e => e

/-- The order of a `Derivative` node (`len(d.variables)`). -/
def derivOrder : SExpr → Nat
  | .deriv _ _ n => n
  | _ => 0

/-- Preorder search for the first `Derivative` node satisfying `p`
(`_rewrite_first_derivative` target search). -/
def findDeriv (p : SExpr → Bool) : SExpr → Option SExpr
  | .int _ => none
  | .sym _ => none
  | .add a b => (findDeriv p a).orElse (fun _ => findDeriv p b)
  | .mul a b => (findDeriv p a).orElse (fun _ => findDeriv p b)
  | .pow a b => (findDeriv p a).orElse (fun _ => findDeriv p b)
  | .fn _ a => findDeriv p a
  | .deriv e v n => if p (.deriv e v n) then some (.deriv e v n) else findDeriv p e

/-- `expr.xreplace({t: r})`: replace occurrences of the exact subtree `t`
by `r`, without descending into replacements. -/
def xreplace (t r : SExpr) (e : SExpr) : SExpr :=
  if e = t then r
  else
    match e with
    | .add a b => .add (xreplace t r a) (xreplace t r b)
    | .mul a b => .mul (xreplace t r a) (xreplace t r b)
    | .pow a b => .pow (xreplace t r a) (xreplace t r b)
    | .fn f a => .fn f (xreplace t r a)
    | .deriv a v n => .deriv (xreplace t r a) v n
    | x => x

/-- `_rewrite_first_derivative`: rewrite the first matching derivative
node, or `none` when no derivative matches. -/
def rewriteFirstDeriv (e : SExpr) (p : SExpr → Bool) (repl : SExpr → SExpr) : Option SExpr :=
  (findDeriv p e).map (fun t => xreplace t (repl t) e)

/-- The external algebra backend interface the engine consumes
(spec section 6): parsing, simplification, differentiation, plus the
behaviour of the backend-delegated rules that are not structurally
embedded (keyed by rule name).  Parse failure (`SympifyError`) is `none`. -/
structure Backend where
  sympify : String → Option SExpr
  simplifyE : SExpr → SExpr
  diffE : SExpr → String → Nat → SExpr
  ruleMatches : String → String → Bool
  ruleApply : String → String → StepGraph → ApplyOut

/-! ## Embedded differentiation rules (engine/calculus_rules.py)

Only the rules whose behaviour the claims depend on are embedded
structurally (`diff_constant` and the higher-priority
`expand_higher_order`).  The remaining catalog rules are consulted after
`diff_constant` in priority order on the relevant inputs, so their match
and apply behaviour is kept abstract through the `Backend` record while
their names, operations and priorities are embedded exactly. -/

def teacherMeta (detailed teacher : String) : List (String × MVal) :=
  [("explanations", .m [("detailed", .s detailed), ("teacher", .s teacher)])]

/-- The match predicate of `diff_constant` on a derivative node: the node
has a differentiation variable and the inner expression has no free
occurrence of it. -/
def diffConstPred (d : SExpr) : Bool :=
  match derivVar d with
  | none => false
  | some v => decide (v ∉ freeSymbols (derivInner d))

/-- The rewrite of `diff_constant`: replace the first matching derivative
by the integer 0. -/
def diffConstantRw (e : SExpr) : Option SExpr :=
  rewriteFirstDeriv e diffConstPred (fun _ => .int 0)

/-- Embeds the `diff_constant` rule (priority 100).  A Python parse
failure inside `matches` would propagate as an exception; the embedding
returns `false` on that path (no claim exercises it).  `str(None)` is the
Python output when the apply-side rewrite finds no target. -/
def diffConstantRule (B : Backend) : Rule where
  name := "diff_constant"
  operation := "differentiate"
  priority := 100
  matchFn := fun s => ((B.sympify s).bind diffConstantRw).isSome
  apply := fun s g =>
    let out := match (B.sympify s).bind diffConstantRw with
      | some o => printSE o
      | none => "None"
    { graph := g, output := out,
      explanation := "Derivative of a constant is 0.",
      deps := [],
      metadata := teacherMeta "Derivative of a constant is 0."
        "If a term does not depend on the variable, changing it cannot change the value, so the rate of change is 0." }

/-- Embeds the `expand_higher_order` rule (priority 150): matches when the
first derivative node of the parse has more than one differentiation
variable, and applies the backend differentiator to collapse it. -/
def expandHigherOrderRule (B : Backend) : Rule where
  name := "expand_higher_order"
  operation := "differentiate"
  priority := 150
  matchFn := fun s =>
    match B.sympify s with
    | none => false
    | some e =>
      match findDeriv (fun _ => true) e with
      | none => false
      | some d => decide (1 < derivOrder d)
  apply := fun s g =>
    match B.sympify s with
    | none => { graph := g, output := "None", explanation := "", deps := [], metadata := [] }
    | some e =>
      match findDeriv (fun _ => true) e with
      | none => { graph := g, output := s, explanation := "Already first-order.", deps := [],
                  metadata := [("noop", .b true)] }
      | some d =>
        if derivOrder d ≤ 1 then
          { graph := g, output := s, explanation := "Already first-order.", deps := [],
            metadata := [("noop", .b true)] }
        else
          match d with
          | .deriv inner v n =>
            let result := B.diffE inner v n
            let onames := "Compute derivative of order " ++ toString n
            { graph := g, output := printSE (xreplace d result e),
              explanation := onames, deps := [],
              metadata := teacherMeta onames onames }
          | _ =>
            { graph := g, output := s, explanation := "Already first-order.", deps := [],
              metadata := [("noop", .b true)] }

/-- A catalog rule whose match/apply behaviour is delegated to the
backend record (rules below `diff_constant` in the priority order on the
inputs the claims exercise). -/
def abstractRule (B : Backend) (name operation : String) (priority : Int) : Rule where
  name := name
  operation := operation
  priority := priority
  matchFn := B.ruleMatches name
  apply := B.ruleApply name

/-- The registry built by `bootstrap.default_registry` (rule portion), in
registration order: the differentiation catalog, the algebra catalog, the
linear-algebra catalog, then the SymPy fallback differentiator. -/
def builtinRegistry (B : Backend) : Registry :=
  [ expandHigherOrderRule B
  , diffConstantRule B
  , abstractRule B "diff_identity" "differentiate" 100
  , abstractRule B "sum_rule" "differentiate" 90
  , abstractRule B "constant_multiple" "differentiate" 95
  , abstractRule B "quotient_rule" "differentiate" 80
  , abstractRule B "power_rule" "differentiate" 85
  , abstractRule B "product_rule" "differentiate" 80
  , abstractRule B "logarithmic_differentiation" "differentiate" 80
  , abstractRule B "chain_rule_sin" "differentiate" 85
  , abstractRule B "chain_rule_cos" "differentiate" 85
  , abstractRule B "chain_rule_tan" "differentiate" 85
  , abstractRule B "chain_rule_sec" "differentiate" 85
  , abstractRule B "chain_rule_csc" "differentiate" 85
  , abstractRule B "chain_rule_cot" "differentiate" 85
  , abstractRule B "chain_rule_exp" "differentiate" 85
  , abstractRule B "chain_rule_log" "differentiate" 85
  , abstractRule B "chain_rule_asin" "differentiate" 85
  , abstractRule B "chain_rule_acos" "differentiate" 85
  , abstractRule B "chain_rule_atan" "differentiate" 85
  , abstractRule B "chain_rule_asec" "differentiate" 85
  , abstractRule B "chain_rule_acsc" "differentiate" 85
  , abstractRule B "chain_rule_acot" "differentiate" 85
  , abstractRule B "chain_rule_sinh" "differentiate" 85
  , abstractRule B "chain_rule_cosh" "differentiate" 85
  , abstractRule B "chain_rule_tanh" "differentiate" 85
  , abstractRule B "chain_rule_asinh" "differentiate" 85
  , abstractRule B "chain_rule_acosh" "differentiate" 85
  , abstractRule B "chain_rule_atanh" "differentiate" 85
  , abstractRule B "chain_rule_erf" "differentiate" 85
  , abstractRule B "chain_rule_gamma" "differentiate" 85
  , abstractRule B "chain_rule_heaviside" "differentiate" 85
  , abstractRule B "chain_rule_abs" "differentiate" 85
  , abstractRule B "chain_rule_floor" "differentiate" 85
  , abstractRule B "chain_rule_ceiling" "differentiate" 85
  , abstractRule B "evaluate_derivative_fallback" "differentiate" (-50)
  , abstractRule B "simplify" "differentiate" (-200)
  , abstractRule B "expand_expression" "expand" 100
  , abstractRule B "factor_expression" "factor" 100
  , abstractRule B "simplify_trig" "simplify" 100
  , abstractRule B "matrix_multiply" "matrix_multiply" 100
  , abstractRule B "matrix_determinant" "matrix_determinant" 100
  , abstractRule B "matrix_inverse" "matrix_inverse" 100
  , abstractRule B "matrix_rref" "matrix_rref" 100
  , abstractRule B "matrix_eigenvalues" "matrix_eigenvalues" 100
  , abstractRule B "matrix_lu" "matrix_lu" 100
  , abstractRule B "sympy_diff" "differentiate" (-100)
  ]

/-! ## Step-id formatting -/

def digitChar (n : Nat) : Char := Char.ofNat (48 + n)

/-- Little-endian decimal digits of a natural number, as characters. -/
def toDecRev (n : Nat) : List Char :=
  if h : n < 10 then [digitChar n]
  else digitChar (n % 10) :: toDecRev (n / 10)
decreasing_by exact Nat.div_lt_self (by omega) (by omega)

/-- Decimal rendering of a natural number. -/
def natDec (n : Nat) : String := String.mk (toDecRev n).reverse

/-- Python `f"{n:03d}"`: decimal, zero-padded on the left to width 3. -/
def pad3 (n : Nat) : String :=
  if n < 10 then "00" ++ natDec n
  else if n < 100 then "0" ++ natDec n
  else natDec n

/-- Python `f"step_{n:03d}"`. -/
def stepIdStr (n : Nat) : String := "step_" ++ pad3 n

/-! ## The step engine (engine/step_engine.py) -/

/-- Embeds `EngineConfig` (default `max_steps = 64`). -/
structure EngineConfig where
  maxSteps : Nat := 64

/-- The loop state of `StepEngine.run`: the graph, the current expression
text, and the previous step id. -/
structure LoopState where
  graph : StepGraph
  current : String
  prevStep : Option String

/-- The operations handled by the one-shot structured branch. -/
def matrixOps : List String :=
  ["matrix_multiply", "matrix_determinant", "matrix_inverse", "matrix_rref",
   "matrix_eigenvalues", "matrix_lu"]

/-- The node the iterative loop records for a rule application: explicit
dependencies when the rule returned any, otherwise a chain link to the
previous step. -/
def mkLoopNode (stepId operation ruleName input : String) (a : ApplyOut)
    (prev : Option String) : StepNode where
  id := stepId
  operation := operation
  rule := ruleName
  input := input
  output := a.output
  explanation := a.explanation
  dependencies := if a.deps.isEmpty then (match prev with | some p => [p] | none => []) else a.deps
  metadata := a.metadata

/-- True when an `Except` carries a value. -/
def exceptOk : Except String Unit → Bool
  | .ok _ => true
  | .error _ => false

/-- The iterative rewrite loop of `StepEngine.run`
(`for idx in range(max_steps)`), called with fuel `max_steps` and starting
index 0.  The resolved-output early halt sits inside a Python
`try/except Exception: pass`, so a validation failure on that path leaves
the already-appended node in the graph and falls through to the normal
record path (which then fails on the duplicate id). -/
def runLoop (B : Backend) (reg : Registry) (operation : String) :
    Nat → Nat → LoopState → Except String LoopState
  | 0, _, st => .ok st
  | fuel + 1, idx, st =>
    let stepId := stepIdStr (idx + 1)
    match selectRule reg operation st.current with
    | none => .ok st
    | some rule =>
      let a := rule.apply st.current st.graph
      if a.output = st.current || metaNoop a.metadata then .ok { st with graph := a.graph }
      else
        let node := mkLoopNode stepId operation rule.name st.current a st.prevStep
        let resolved : Bool :=
          match B.sympify a.output with
          | some po => !hasDeriv po
          | none => false
        let g1 := a.graph ++ [node]
        if resolved && exceptOk (validateStepNode node) && exceptOk (validateStepGraph g1) then
          .ok { graph := g1, current := a.output, prevStep := some stepId }
        else
          let g := if resolved && exceptOk (validateStepNode node) then g1 else a.graph
          match validateStepNode node with
          | .error e => .error e
          | .ok _ =>
            let g2 := g ++ [node]
            match validateStepGraph g2 with
            | .error e => .error ("Invalid step emitted by rule " ++ rule.name ++ ": " ++ e)
            | .ok _ =>
              runLoop B reg operation fuel (idx + 1)
                { graph := g2, current := a.output, prevStep := some stepId }

/-- Metadata of the trailing `simplify_result` node. -/
def simplifyResultMeta : List (String × MVal) :=
  [("explanations", .m
    [ ("detailed", .s "Apply algebraic simplification, combine like terms, and use trigonometric identities to present the result in its simplest form.")
    , ("teacher", .s "After completing all differentiation steps, we simplify the result. This involves combining like terms, reducing fractions, and applying algebraic and trigonometric identities to express the derivative in its most compact and elegant form.") ])]

/-- The post-loop canonicalising pass of `StepEngine.run` for
differentiation: when the resolved result simplifies to a different text,
append one `simplify_result` node (inside `try/except: pass`, so failures
leave the state unchanged). -/
def finalSimplify (B : Backend) (st : LoopState) : StepGraph × String :=
  match B.sympify st.current with
  | none => (st.graph, st.current)
  | some ce =>
    if hasDeriv ce then (st.graph, st.current)
    else
      let s := printSE (B.simplifyE ce)
      if s = st.current then (st.graph, st.current)
      else
        let node : StepNode :=
          { id := stepIdStr (st.graph.length + 1)
            operation := "differentiate"
            rule := "simplify_result"
            input := st.current
            output := s
            explanation := "Simplify the final result using algebraic and trigonometric identities"
            dependencies := match st.prevStep with | some p => [p] | none => []
            metadata := simplifyResultMeta }
        match validateStepNode node with
        | .error _ => (st.graph, st.current)
        | .ok _ => (st.graph ++ [node], s)

/-- Embeds `StepEngine.run`.  Matrix operations take the one-shot
structured branch (no validation after the rule returns); `differentiate`
first checks the order range, parses, and wraps the parse in a pending
`Derivative` marker; all other operations run the iterative loop on the
raw expression text. -/
def run (B : Backend) (reg : Registry) (cfg : EngineConfig) (operation expression : String)
    (var : String := "x") (order : Int := 1) (matrixB : Option String := none) :
    Except String EngineResult :=
  if operation ∈ matrixOps then
    let current :=
      if operation = "matrix_multiply" then
        match matrixB with
        | some b => expression ++ "|||" ++ b
        | none => expression
      else expression
    match selectRule reg operation current with
    | none => .error ("No rule found for operation " ++ operation)
    | some rule =>
      let a := rule.apply current []
      .ok { operation := operation, input := expression, output := a.output, graph := a.graph }
  else
    let start : Except String String :=
      if operation = "differentiate" then
        if order < 1 then .error ("Order must be at least 1, got " ++ toString order)
        else if 10 < order then .error ("Order must be at most 10, got " ++ toString order)
        else
          match B.sympify expression with
          | none => .error ("Invalid mathematical expression " ++ expression)
          | some parsed => .ok (printSE (.deriv parsed var order.toNat))
      else .ok expression
    match start with
    | .error e => .error e
    | .ok current0 =>
      match runLoop B reg operation cfg.maxSteps 0
          { graph := [], current := current0, prevStep := none } with
      | .error e => .error e
      | .ok st =>
        if operation = "differentiate" then
          let r := finalSimplify B st
          .ok { operation := operation, input := expression, output := r.2, graph := r.1 }
        else
          .ok { operation := operation, input := expression, output := st.current, graph := st.graph }

/-! ## Registry ordering lemmas -/

/-- Index-annotated mirror of `insertByPriority` (indices record
registration order). -/
def insertByPriorityIdx (r : Nat × Rule) : List (Nat × Rule) → List (Nat × Rule)
  | [] => [r]
  | x :: xs => if r.2.priority < x.2.priority then x :: insertByPriorityIdx r xs else r :: x :: xs

/-- Index-annotated mirror of `sortRulesDesc`. -/
def sortRulesDescIdx : List (Nat × Rule) → List (Nat × Rule)
  | [] => []
  | x :: xs => insertByPriorityIdx x (sortRulesDescIdx xs)

/-- The strict selection order: higher priority first, ties by earlier
registration index. -/
def ruleOrd (a b : Nat × Rule) : Prop :=
  b.2.priority < a.2.priority ∨ (a.2.priority = b.2.priority ∧ a.1 < b.1)

theorem map_snd_insertByPriorityIdx (r : Nat × Rule) (l : List (Nat × Rule)) :
    (insertByPriorityIdx r l).map Prod.snd = insertByPriority r.2 (l.map Prod.snd) := by
  induction l with
  | nil => rfl
  | cons x xs ih =>
    simp only [insertByPriorityIdx, insertByPriority, List.map_cons]
    by_cases h : r.2.priority < x.2.priority
    · simp [h, ih]
    · simp [h]

theorem map_snd_sortRulesDescIdx (l : List (Nat × Rule)) :
    (sortRulesDescIdx l).map Prod.snd = sortRulesDesc (l.map Prod.snd) := by
  induction l with
  | nil => rfl
  | cons x xs ih =>
    simp only [sortRulesDescIdx, sortRulesDesc, List.map_cons, map_snd_insertByPriorityIdx, ih]

theorem perm_insertByPriorityIdx (r : Nat × Rule) (l : List (Nat × Rule)) :
    (insertByPriorityIdx r l).Perm (r :: l) := by
  induction l with
  | nil => exact List.Perm.refl _
  | cons x xs ih =>
    simp only [insertByPriorityIdx]
    by_cases h : r.2.priority < x.2.priority
    · simp only [h, if_true]
      exact ((ih.cons x).trans (List.Perm.swap r x xs))
    · simp [h]

theorem perm_sortRulesDescIdx (l : List (Nat × Rule)) : (sortRulesDescIdx l).Perm l := by
  induction l with
  | nil => exact List.Perm.refl _
  | cons x xs ih =>
    exact (perm_insertByPriorityIdx x (sortRulesDescIdx xs)).trans (ih.cons x)

theorem mem_insertByPriorityIdx {y r : Nat × Rule} {l : List (Nat × Rule)} :
    y ∈ insertByPriorityIdx r l ↔ y = r ∨ y ∈ l := by
  have := (perm_insertByPriorityIdx r l).mem_iff (a := y)
  simpa using this

theorem pairwise_insertByPriorityIdx (r : Nat × Rule) (l : List (Nat × Rule))
    (hs : l.Pairwise ruleOrd) (hidx : ∀ y ∈ l, r.1 < y.1) :
    (insertByPriorityIdx r l).Pairwise ruleOrd := by
  induction l with
  | nil => simp [insertByPriorityIdx]
  | cons x xs ih =>
    simp only [insertByPriorityIdx]
    rcases List.pairwise_cons.mp hs with ⟨hx, hxs⟩
    by_cases h : r.2.priority < x.2.priority
    · simp only [h, if_true]
      refine List.pairwise_cons.mpr ⟨?_, ih hxs (fun y hy => hidx y (List.mem_cons_of_mem x hy))⟩
      intro y hy
      rcases mem_insertByPriorityIdx.mp hy with rfl | hy
      · exact Or.inl h
      · exact hx y hy
    · simp only [h, if_false]
      refine List.pairwise_cons.mpr ⟨?_, hs⟩
      intro y hy
      have h2 : x.2.priority ≤ r.2.priority := not_lt.mp h
      rcases List.mem_cons.mp hy with heq | hmem
      · rw [heq]
        rcases lt_or_eq_of_le h2 with h3 | h3
        · exact Or.inl h3
        · exact Or.inr ⟨h3.symm, hidx x (List.mem_cons_self x xs)⟩
      · rcases hx y hmem with hlt | ⟨heq2, _⟩
        · exact Or.inl (by omega)
        · rcases lt_or_eq_of_le h2 with h3 | h3
          · exact Or.inl (by omega)
          · exact Or.inr ⟨by omega, hidx y (List.mem_cons_of_mem x hmem)⟩

theorem pairwise_sortRulesDescIdx (l : List (Nat × Rule))
    (hidx : l.Pairwise (fun a b => a.1 < b.1)) :
    (sortRulesDescIdx l).Pairwise ruleOrd := by
  induction l with
  | nil => simp [sortRulesDescIdx]
  | cons x xs ih =>
    rcases List.pairwise_cons.mp hidx with ⟨hx, hxs⟩
    refine pairwise_insertByPriorityIdx x (sortRulesDescIdx xs) (ih hxs) ?_
    intro y hy
    exact hx y ((perm_sortRulesDescIdx xs).mem_iff.mp hy)

/-- Registration-order indexing of a registry. -/
def withIdx : Nat → List Rule → List (Nat × Rule)
  | _, [] => []
  | i, r :: rs => (i, r) :: withIdx (i + 1) rs

theorem map_snd_withIdx (i : Nat) (l : List Rule) : (withIdx i l).map Prod.snd = l := by
  induction l generalizing i with
  | nil => rfl
  | cons x xs ih => simp [withIdx, ih]

theorem le_idx_of_mem_withIdx {i : Nat} {l : List Rule} {y : Nat × Rule}
    (hy : y ∈ withIdx i l) : i ≤ y.1 := by
  induction l generalizing i with
  | nil => simp [withIdx] at hy
  | cons x xs ih =>
    rcases List.mem_cons.mp hy with heq | hmem
    · rw [heq]
    · exact le_trans (Nat.le_succ i) (ih hmem)

theorem pairwise_idx_withIdx (i : Nat) (l : List Rule) :
    (withIdx i l).Pairwise (fun a b => a.1 < b.1) := by
  induction l generalizing i with
  | nil => exact List.Pairwise.nil
  | cons x xs ih =>
    refine List.pairwise_cons.mpr ⟨?_, ih (i + 1)⟩
    intro y hy
    exact lt_of_lt_of_le (Nat.lt_succ_self i) (le_idx_of_mem_withIdx hy)

theorem mem_withIdx_of_mem {l : List Rule} {r : Rule} (h : r ∈ l) (i : Nat) :
    ∃ j, (j, r) ∈ withIdx i l := by
  induction l generalizing i with
  | nil => simp at h
  | cons x xs ih =>
    rcases List.mem_cons.mp h with heq | hmem
    · exact ⟨i, by rw [heq]; exact List.mem_cons_self _ _⟩
    · rcases ih hmem (i + 1) with ⟨j, hj⟩
      exact ⟨j, List.mem_cons_of_mem _ hj⟩

theorem map_snd_filter_withIdx (operation : String) (i : Nat) (l : List Rule) :
    ((withIdx i l).filter (fun x => decide (x.2.operation = operation))).map Prod.snd
      = l.filter (fun r => decide (r.operation = operation)) := by
  induction l generalizing i with
  | nil => rfl
  | cons x xs ih =>
    by_cases h : x.operation = operation
    · simp [withIdx, List.filter_cons, h, ih]
    · simp [withIdx, List.filter_cons, h, ih]

/-- The indexed filtered registry for an operation. -/
def opRulesIdx (reg : Registry) (operation : String) : List (Nat × Rule) :=
  (withIdx 0 reg).filter (fun x => decide (x.2.operation = operation))

theorem listRules_eq_idx (reg : Registry) (operation : String) :
    listRules reg operation = (sortRulesDescIdx (opRulesIdx reg operation)).map Prod.snd := by
  rw [map_snd_sortRulesDescIdx, opRulesIdx, map_snd_filter_withIdx operation 0 reg, listRules]

theorem listRules_pairwise (reg : Registry) (operation : String) :
    (listRules reg operation).Pairwise (fun a b => b.priority ≤ a.priority) := by
  rw [listRules_eq_idx]
  refine (pairwise_sortRulesDescIdx _ ((pairwise_idx_withIdx 0 reg).filter _)).map Prod.snd ?_
  intro a b hab
  rcases hab with hlt | ⟨heq, _⟩
  · exact le_of_lt hlt
  · exact le_of_eq heq.symm

theorem mem_listRules {reg : Registry} {operation : String} {r : Rule}
    (h : r ∈ reg) (hop : r.operation = operation) : r ∈ listRules reg operation := by
  rw [listRules_eq_idx]
  rcases mem_withIdx_of_mem h 0 with ⟨j, hj⟩
  have hmem : (j, r) ∈ opRulesIdx reg operation := by
    refine List.mem_filter.mpr ⟨hj, by simp [hop]⟩
  have hmem2 : (j, r) ∈ sortRulesDescIdx (opRulesIdx reg operation) :=
    (perm_sortRulesDescIdx _).mem_iff.mpr hmem
  exact List.mem_map.mpr ⟨(j, r), hmem2, rfl⟩

theorem find?_sorted_priority {L : List Rule}
    (hs : L.Pairwise (fun a b => b.priority ≤ a.priority))
    {p : Rule → Bool} {r1 r2 : Rule} (hfind : L.find? p = some r2)
    (h1 : r1 ∈ L) (hp : p r1 = true) : r1.priority ≤ r2.priority := by
  induction L with
  | nil => simp [List.find?] at hfind
  | cons x xs ih =>
    rcases List.pairwise_cons.mp hs with ⟨hx, hxs⟩
    by_cases hpx : p x
    · rw [List.find?_cons_of_pos _ hpx] at hfind
      injection hfind with hfind
      rcases List.mem_cons.mp h1 with heq | hmem
      · rw [heq, hfind]
      · rw [← hfind]
        exact hx r1 hmem
    · rw [List.find?_cons_of_neg _ hpx] at hfind
      rcases List.mem_cons.mp h1 with heq | hmem
      · rw [heq] at hp
        exact absurd hp (by simp [hpx])
      · exact ih hxs hfind hmem

/-- C4: `list_rules` returns exactly the rules registered for the
operation, ordered by descending priority with ties broken by registration
order (witnessed by the unique index-annotated list that projects to
`listRules`, is a permutation of the filtered registration-ordered
registry, and is sorted by the priority-then-index order);
`select_rule` returns the first rule of that order whose match predicate
accepts the expression, and any selected rule has priority at least that
of every registered matching rule for the operation. -/
theorem c4_rule_selection_priority (reg : Registry) (operation expr : String) :
    (∃ L : List (Nat × Rule),
        L.map Prod.snd = listRules reg operation ∧
        L.Perm (opRulesIdx reg operation) ∧
        L.Pairwise ruleOrd) ∧
    selectRule reg operation expr = (listRules reg operation).find? (fun r => r.matchFn expr) ∧
    (∀ r1 r2 : Rule, r1 ∈ reg → r1.operation = operation → r1.matchFn expr = true →
        selectRule reg operation expr = some r2 → r1.priority ≤ r2.priority) := by
  refine ⟨⟨sortRulesDescIdx (opRulesIdx reg operation), ?_, ?_, ?_⟩, rfl, ?_⟩
  · exact (listRules_eq_idx reg operation).symm
  · exact perm_sortRulesDescIdx _
  · exact pairwise_sortRulesDescIdx _ ((pairwise_idx_withIdx 0 reg).filter _)
  · intro r1 r2 h1 hop hm hsel
    exact find?_sorted_priority (listRules_pairwise reg operation) hsel
      (mem_listRules h1 hop) hm

/-! ## Validator phase lemmas -/

theorem checkNodes_ok_val {g : List StepNode} {seen s : List String}
    (h : checkNodes g seen = .ok s) : s = seen ++ g.map (fun n => n.id) := by
  induction g generalizing seen with
  | nil =>
    simp only [checkNodes] at h
    injection h with h
    simp [h]
  | cons n rest ih =>
    simp only [checkNodes] at h
    cases hv : validateStepNode n with
    | error e => rw [hv] at h; exact absurd h (by simp)
    | ok _ =>
      rw [hv] at h
      by_cases hmem : n.id ∈ seen
      · rw [if_pos hmem] at h; exact absurd h (by simp)
      · rw [if_neg hmem] at h
        have := ih h
        simp only [List.map_cons]
        rw [this]
        simp

theorem checkNodes_ok_iff {g : List StepNode} {seen : List String} :
    (∃ s, checkNodes g seen = .ok s) ↔
      (∀ n ∈ g, validateStepNode n = .ok ()) ∧ (∀ n ∈ g, n.id ∉ seen) ∧
        (g.map (fun n => n.id)).Nodup := by
  induction g generalizing seen with
  | nil => simp [checkNodes]
  | cons n rest ih =>
    simp only [checkNodes]
    cases hv : validateStepNode n with
    | error e =>
      simp only [List.mem_cons]
      constructor
      · rintro ⟨s, hs⟩; exact absurd hs (by simp)
      · rintro ⟨hwf, _, _⟩
        have := hwf n (Or.inl rfl)
        rw [hv] at this
        exact absurd this (by simp)
    | ok u =>
      cases u
      by_cases hmem : n.id ∈ seen
      · rw [if_pos hmem]
        constructor
        · rintro ⟨s, hs⟩; exact absurd hs (by simp)
        · rintro ⟨_, hfresh, _⟩
          exact absurd hmem (hfresh n (List.mem_cons_self n rest))
      · rw [if_neg hmem]
        rw [ih]
        constructor
        · rintro ⟨hwf, hfresh, hnd⟩
          refine ⟨?_, ?_, ?_⟩
          · intro m hm
            rcases List.mem_cons.mp hm with heq | hmem2
            · rw [heq]; exact hv
            · exact hwf m hmem2
          · intro m hm
            rcases List.mem_cons.mp hm with heq | hmem2
            · rw [heq]; exact hmem
            · intro hc
              exact (hfresh m hmem2) (by simp [hc])
          · refine List.nodup_cons.mpr ⟨?_, hnd⟩
            intro hc
            rcases List.mem_map.mp hc with ⟨m, hm, hid⟩
            have := hfresh m hm
            simp [hid] at this
        · rintro ⟨hwf, hfresh, hnd⟩
          rcases List.nodup_cons.mp hnd with ⟨hn, hnd2⟩
          refine ⟨fun m hm => hwf m (List.mem_cons_of_mem n hm), ?_, hnd2⟩
          intro m hm
          simp only [List.mem_append, List.mem_singleton]
          rintro (hc | hc)
          · exact (hfresh m (List.mem_cons_of_mem n hm)) hc
          · exact hn (List.mem_map.mpr ⟨m, hm, hc⟩)

theorem firstMissing_none_iff {seen l : List String} :
    firstMissing seen l = none ↔ ∀ d ∈ l, d ∈ seen := by
  induction l with
  | nil => simp [firstMissing]
  | cons d ds ih =>
    simp only [firstMissing]
    by_cases h : d ∈ seen
    · simp [h, ih]
    · simp [h]

theorem checkDeps_ok_iff {seen : List String} {g : List StepNode} :
    checkDeps seen g = .ok () ↔ ∀ n ∈ g, ∀ d ∈ n.dependencies, d ∈ seen := by
  induction g with
  | nil => simp [checkDeps]
  | cons n rest ih =>
    simp only [checkDeps]
    cases hf : firstMissing seen n.dependencies with
    | some d =>
      constructor
      · intro h; exact absurd h (by simp)
      · intro h
        have : ∀ e ∈ n.dependencies, e ∈ seen := h n (List.mem_cons_self n rest)
        rw [firstMissing_none_iff.mpr this] at hf
        exact absurd hf (by simp)
    | none =>
      rw [ih]
      constructor
      · intro h
        intro m hm
        rcases List.mem_cons.mp hm with heq | hmem
        · rw [heq]; exact firstMissing_none_iff.mp hf
        · exact h m hmem
      · intro h m hm
        exact h m (List.mem_cons_of_mem n hm)

/-! ## Edge counting lemmas for the Kahn traversal -/

/-- Number of edges into `x` (the initial indegree, as a natural). -/
def cntTo (E : List (String × String)) (x : String) : Nat :=
  (E.filter (fun e => decide (e.2 = x))).length

/-- Number of edges from `a` into `x` (with multiplicity). -/
def cntFromTo (E : List (String × String)) (a x : String) : Nat :=
  (E.filter (fun e => decide (e.2 = x) && decide (e.1 = a))).length

/-- Number of edges into `x` whose source lies in `P`. -/
def cntInto (E : List (String × String)) (P : List String) (x : String) : Nat :=
  (E.filter (fun e => decide (e.2 = x) && decide (e.1 ∈ P))).length

theorem filter_snd_cons_pos (e : String × String) (E : List (String × String)) (x : String)
    (h : e.2 = x) :
    List.filter (fun f => decide (f.2 = x)) (e :: E)
      = e :: List.filter (fun f => decide (f.2 = x)) E :=
  List.filter_cons_of_pos (by simp [h])

theorem filter_snd_cons_neg (e : String × String) (E : List (String × String)) (x : String)
    (h : ¬ e.2 = x) :
    List.filter (fun f => decide (f.2 = x)) (e :: E)
      = List.filter (fun f => decide (f.2 = x)) E :=
  List.filter_cons_of_neg (by simp [h])

theorem filter_fst_cons_pos (e : String × String) (E : List (String × String)) (a : String)
    (h : e.1 = a) :
    List.filter (fun f => decide (f.1 = a)) (e :: E)
      = e :: List.filter (fun f => decide (f.1 = a)) E :=
  List.filter_cons_of_pos (by simp [h])

theorem filter_fst_cons_neg (e : String × String) (E : List (String × String)) (a : String)
    (h : ¬ e.1 = a) :
    List.filter (fun f => decide (f.1 = a)) (e :: E)
      = List.filter (fun f => decide (f.1 = a)) E :=
  List.filter_cons_of_neg (by simp [h])

theorem indegInit_eq_cntTo (E : List (String × String)) (x : String) :
    indegInit E x = (cntTo E x : Int) := rfl

theorem cntInto_nil (E : List (String × String)) (x : String) : cntInto E [] x = 0 := by
  induction E with
  | nil => rfl
  | cons e E ih =>
    unfold cntInto at ih ⊢
    rw [List.filter_cons_of_neg (by simp)]
    exact ih

theorem cntInto_le_cntTo (E : List (String × String)) (P : List String) (x : String) :
    cntInto E P x ≤ cntTo E x := by
  induction E with
  | nil => exact le_refl 0
  | cons e E ih =>
    unfold cntInto cntTo at ih ⊢
    by_cases h2 : e.2 = x
    · rw [filter_snd_cons_pos e E x h2]
      by_cases h1 : e.1 ∈ P
      · rw [List.filter_cons_of_pos (by simp [h2, h1])]
        simpa using Nat.succ_le_succ ih
      · rw [List.filter_cons_of_neg (by simp [h1])]
        simp only [List.length_cons]
        omega
    · rw [List.filter_cons_of_neg (by simp [h2]), filter_snd_cons_neg e E x h2]
      exact ih

theorem cntInto_append (E : List (String × String)) (P : List String) (n x : String)
    (hn : n ∉ P) : cntInto E (P ++ [n]) x = cntInto E P x + cntFromTo E n x := by
  induction E with
  | nil => rfl
  | cons e E ih =>
    unfold cntInto cntFromTo at ih ⊢
    by_cases h2 : e.2 = x
    · by_cases h1 : e.1 ∈ P
      · have hne : ¬ e.1 = n := fun hc => hn (hc ▸ h1)
        rw [List.filter_cons_of_pos (by simp [h2, List.mem_append, h1]),
            List.filter_cons_of_pos (by simp [h2, h1]),
            List.filter_cons_of_neg (by simp [hne])]
        simp only [List.length_cons]
        omega
      · by_cases hen : e.1 = n
        · rw [List.filter_cons_of_pos (by simp [h2, List.mem_append, hen]),
              List.filter_cons_of_neg (by simp [h1]),
              List.filter_cons_of_pos (by simp [h2, hen])]
          simp only [List.length_cons]
          omega
        · rw [List.filter_cons_of_neg (by simp [List.mem_append, h1, hen]),
              List.filter_cons_of_neg (by simp [h1]),
              List.filter_cons_of_neg (by simp [hen])]
          exact ih
    · rw [List.filter_cons_of_neg (by simp [h2]), List.filter_cons_of_neg (by simp [h2]),
          List.filter_cons_of_neg (by simp [h2])]
      exact ih

theorem cntInto_eq_cntTo_iff (E : List (String × String)) (P : List String) (x : String) :
    cntInto E P x = cntTo E x ↔ ∀ e ∈ E, e.2 = x → e.1 ∈ P := by
  induction E with
  | nil => simp [cntInto, cntTo]
  | cons e E ih =>
    unfold cntInto cntTo at ih ⊢
    by_cases h2 : e.2 = x
    · by_cases h1 : e.1 ∈ P
      · rw [List.filter_cons_of_pos (by simp [h2, h1]), filter_snd_cons_pos e E x h2]
        simp only [List.length_cons, Nat.succ_inj]
        rw [ih]
        constructor
        · intro h f hf h2f
          rcases List.mem_cons.mp hf with heq | hmem
          · rw [heq]; exact h1
          · exact h f hmem h2f
        · intro h f hf h2f
          exact h f (List.mem_cons_of_mem e hf) h2f
      · rw [List.filter_cons_of_neg (by simp [h1]), filter_snd_cons_pos e E x h2]
        simp only [List.length_cons]
        constructor
        · intro h
          have hle := cntInto_le_cntTo E P x
          unfold cntInto cntTo at hle
          omega
        · intro h
          exact absurd (h e (List.mem_cons_self e E) h2) h1
    · rw [List.filter_cons_of_neg (by simp [h2]), filter_snd_cons_neg e E x h2]
      rw [ih]
      constructor
      · intro h f hf h2f
        rcases List.mem_cons.mp hf with heq | hmem
        · rw [heq] at h2f; exact absurd h2f h2
        · exact h f hmem h2f
      · intro h f hf h2f
        exact h f (List.mem_cons_of_mem e hf) h2f

theorem exists_src_outside_of_ne (E : List (String × String)) (P : List String) (x : String)
    (h : cntInto E P x ≠ cntTo E x) : ∃ e, e ∈ E ∧ e.2 = x ∧ e.1 ∉ P := by
  by_contra hc
  push_neg at hc
  exact h ((cntInto_eq_cntTo_iff E P x).mpr hc)

theorem mem_succsOf {E : List (String × String)} {a t : String} :
    t ∈ succsOf E a ↔ (a, t) ∈ E := by
  constructor
  · intro h
    rcases List.mem_map.mp h with ⟨e, he, het⟩
    have hmf := List.mem_filter.mp he
    have h1 : e.1 = a := by simpa using hmf.2
    have hea : e = (a, t) := by
      cases e
      simp only [Prod.mk.injEq]
      exact ⟨h1, het⟩
    rw [← hea]
    exact hmf.1
  · intro h
    refine List.mem_map.mpr ⟨(a, t), ?_, rfl⟩
    exact List.mem_filter.mpr ⟨h, by simp⟩

theorem count_succsOf (E : List (String × String)) (a t : String) :
    (succsOf E a).count t = cntFromTo E a t := by
  induction E with
  | nil => rfl
  | cons e E ih =>
    unfold succsOf cntFromTo at ih ⊢
    by_cases h1 : e.1 = a
    · rw [filter_fst_cons_pos e E a h1]
      by_cases h2 : e.2 = t
      · rw [List.filter_cons_of_pos (by simp [h1, h2]), List.map_cons]
        rw [List.count_cons]
        simp only [List.length_cons, h2]
        simp [ih]
      · rw [List.filter_cons_of_neg (by simp [h2]), List.map_cons, List.count_cons]
        simp [h2, ih]
    · rw [filter_fst_cons_neg e E a h1]
      rw [List.filter_cons_of_neg (by simp [h1])]
      exact ih

theorem cntFromTo_eq_zero_of_not_mem (E : List (String × String)) (a x : String)
    (h : (a, x) ∉ E) : cntFromTo E a x = 0 := by
  induction E with
  | nil => rfl
  | cons e E ih =>
    unfold cntFromTo at ih ⊢
    have hne : e ≠ (a, x) := fun hc => h (hc ▸ List.mem_cons_self e E)
    have hcond : ¬ (e.2 = x ∧ e.1 = a) := by
      rintro ⟨hc2, hc1⟩
      exact hne (by cases e; simp_all)
    rw [List.filter_cons_of_neg (by simp; intro hc2 hc1; exact hcond ⟨hc2, hc1⟩)]
    exact ih (fun hc => h (List.mem_cons_of_mem e hc))

/-! ## The processSuccs specification -/

theorem processSuccs_spec (T : List String) :
    ∀ (q : List String) (indeg : String → Int),
      (∀ x ∈ T, 1 ≤ indeg x ∧ (T.count x : Int) ≤ indeg x) →
      ∃ nq, processSuccs T q indeg = (q ++ nq, fun x => indeg x - (T.count x : Int)) ∧
        nq.Nodup ∧ (∀ x, x ∈ nq ↔ x ∈ T ∧ indeg x = (T.count x : Int)) := by
  induction T with
  | nil =>
    intro q indeg h
    refine ⟨[], ?_, List.nodup_nil, by simp⟩
    simp only [processSuccs, List.append_nil]
    refine congrArg _ ?_
    funext x
    simp
  | cons t rest ih =>
    intro q indeg h
    have hhead := h t (List.mem_cons_self t rest)
    have hcc : List.count t (t :: rest) = List.count t rest + 1 := List.count_cons_self t rest
    by_cases hd : indeg t - 1 = 0
    · have ht1 : indeg t = 1 := by omega
      have htnotin : t ∉ rest := by
        intro hc
        have h1 : 1 ≤ List.count t rest := List.count_pos_iff.mpr hc
        have h2 := hhead.2
        rw [hcc] at h2
        push_cast at h2
        omega
      have hcnt0 : List.count t rest = 0 := List.count_eq_zero.mpr htnotin
      have hstep : processSuccs (t :: rest) q indeg
          = processSuccs rest (q ++ [t]) (fun x => if x = t then indeg t - 1 else indeg x) := by
        simp only [processSuccs, if_pos hd]
      obtain ⟨nq2, heq, hnd, hiff⟩ :=
        ih (q ++ [t]) (fun x => if x = t then indeg t - 1 else indeg x) (by
          intro x hx
          have hxt : x ≠ t := fun hc => htnotin (hc ▸ hx)
          have hh := h x (List.mem_cons_of_mem t hx)
          rw [List.count_cons_of_ne hxt] at hh
          simp only []
          rw [if_neg hxt]
          exact hh)
      refine ⟨t :: nq2, ?_, ?_, ?_⟩
      · rw [hstep, heq]
        refine Prod.ext ?_ ?_
        · simp
        · funext x
          simp only []
          rcases eq_or_ne x t with rfl | hx
          · rw [if_pos rfl, hcc, hcnt0]
            push_cast
            ring
          · rw [if_neg hx, List.count_cons_of_ne hx]
      · refine List.nodup_cons.mpr ⟨?_, hnd⟩
        intro hc
        exact htnotin ((hiff t).mp hc).1
      · intro x
        constructor
        · intro hx
          rcases List.mem_cons.mp hx with heq2 | hmem
          · subst heq2
            refine ⟨List.mem_cons_self _ _, ?_⟩
            rw [hcc, hcnt0, ht1]
            simp
          · have hmf := (hiff x).mp hmem
            have hxt : x ≠ t := fun hc => htnotin (hc ▸ hmf.1)
            refine ⟨List.mem_cons_of_mem t hmf.1, ?_⟩
            have h2 := hmf.2
            rw [if_neg hxt] at h2
            rw [List.count_cons_of_ne hxt]
            exact h2
        · rintro ⟨hmem, hval⟩
          rcases List.mem_cons.mp hmem with heq2 | hmem2
          · subst heq2; exact List.mem_cons_self _ _
          · have hxt : x ≠ t := fun hc => htnotin (hc ▸ hmem2)
            refine List.mem_cons_of_mem t ((hiff x).mpr ⟨hmem2, ?_⟩)
            rw [if_neg hxt]
            rw [List.count_cons_of_ne hxt] at hval
            exact hval
    · have hstep : processSuccs (t :: rest) q indeg
          = processSuccs rest q (fun x => if x = t then indeg t - 1 else indeg x) := by
        simp only [processSuccs, if_neg hd]
      obtain ⟨nq2, heq, hnd, hiff⟩ :=
        ih q (fun x => if x = t then indeg t - 1 else indeg x) (by
          intro x hx
          simp only []
          rcases eq_or_ne x t with rfl | hxt
          · have h2 := hhead.2
            have h1 : 1 ≤ List.count x rest := List.count_pos_iff.mpr hx
            rw [hcc] at h2
            push_cast at h2
            rw [if_pos rfl]
            exact ⟨by omega, by omega⟩
          · have hh := h x (List.mem_cons_of_mem t hx)
            rw [List.count_cons_of_ne hxt] at hh
            rw [if_neg hxt]
            exact hh)
      refine ⟨nq2, ?_, hnd, ?_⟩
      · rw [hstep, heq]
        refine Prod.ext rfl ?_
        funext x
        simp only []
        rcases eq_or_ne x t with rfl | hx
        · rw [if_pos rfl, hcc]
          push_cast
          ring
        · rw [if_neg hx, List.count_cons_of_ne hx]
      · intro x
        rw [hiff x]
        rcases eq_or_ne x t with rfl | hx
        · rw [if_pos rfl, hcc]
          push_cast
          constructor
          · rintro ⟨hmem, hval⟩
            exact ⟨List.mem_cons_self _ _, by omega⟩
          · rintro ⟨_, hval⟩
            have hmem : x ∈ rest := by
              by_contra hc
              have hz : List.count x rest = 0 := List.count_eq_zero.mpr hc
              rw [hz] at hval
              push_cast at hval
              omega
            exact ⟨hmem, by omega⟩
        · rw [if_neg hx, List.count_cons_of_ne hx]
          constructor
          · rintro ⟨hmem, hval⟩
            exact ⟨List.mem_cons_of_mem t hmem, hval⟩
          · rintro ⟨hmem, hval⟩
            rcases List.mem_cons.mp hmem with heq2 | hmem2
            · exact absurd heq2 hx
            · exact ⟨hmem2, hval⟩

/-! ## The Kahn traversal master lemma -/

theorem kahn_master (E : List (String × String)) (ids : List String)
    (hE2 : ∀ e ∈ E, e.2 ∈ ids) :
    ∀ (fuel : Nat) (P q : List String) (indeg : String → Int),
      P.Nodup → q.Nodup → (∀ x ∈ P, x ∉ q) → (∀ x ∈ P, x ∈ ids) → (∀ x ∈ q, x ∈ ids) →
      (∀ x, indeg x = (cntTo E x : Int) - (cntInto E P x : Int)) →
      (∀ x ∈ q, cntInto E P x = cntTo E x) →
      (∀ x ∈ ids, x ∉ P → x ∉ q → cntInto E P x ≠ cntTo E x) →
      (∀ a b, (a, b) ∈ E → b ∈ P → a ∈ P ∧ P.indexOf a < P.indexOf b) →
      ids.length - P.length < fuel →
      ∃ Pf, kahnLoop (succsOf E) fuel q indeg P.length = Pf.length ∧
        Pf.Nodup ∧ (∀ x ∈ Pf, x ∈ ids) ∧
        (∀ a b, (a, b) ∈ E → b ∈ Pf → a ∈ Pf ∧ Pf.indexOf a < Pf.indexOf b) ∧
        (∀ x ∈ ids, x ∉ Pf → cntInto E Pf x ≠ cntTo E x) := by
  intro fuel
  induction fuel with
  | zero =>
    intro P q indeg _ _ _ _ _ _ _ _ _ hfuel
    omega
  | succ fuel ihf =>
    intro P q indeg hPnd hqnd hdisj hPids hqids hideg hqzero hrest htopo hfuel
    cases q with
    | nil =>
      refine ⟨P, rfl, hPnd, hPids, htopo, ?_⟩
      intro x hx hnp
      exact hrest x hx hnp (List.not_mem_nil x)
    | cons nid q2 =>
      have hnidq : nid ∈ nid :: q2 := List.mem_cons_self nid q2
      have hnidids : nid ∈ ids := hqids nid hnidq
      have hnidnP : nid ∉ P := fun hc => hdisj nid hc hnidq
      have hnz : cntInto E P nid = cntTo E nid := hqzero nid hnidq
      have hsrc : ∀ e ∈ E, e.2 = nid → e.1 ∈ P := (cntInto_eq_cntTo_iff E P nid).mp hnz
      have hq2nd : q2.Nodup := (List.nodup_cons.mp hqnd).2
      have hnidnq2 : nid ∉ q2 := (List.nodup_cons.mp hqnd).1
      -- facts about the successors of nid
      have hTmem : ∀ x ∈ succsOf E nid, (nid, x) ∈ E := fun x hx => mem_succsOf.mp hx
      have hTids : ∀ x ∈ succsOf E nid, x ∈ ids := fun x hx => hE2 (nid, x) (hTmem x hx)
      have hTnP : ∀ x ∈ succsOf E nid, x ∉ P := by
        intro x hx hc
        exact hnidnP (htopo nid x (hTmem x hx) hc).1
      have hTnq : ∀ x ∈ succsOf E nid, x ∉ nid :: q2 := by
        intro x hx hc
        rcases List.mem_cons.mp hc with heq | hmem
        · rw [heq] at hx
          exact hnidnP (hsrc (nid, nid) (hTmem nid hx) rfl)
        · exact hnidnP ((cntInto_eq_cntTo_iff E P x).mp (hqzero x (List.mem_cons_of_mem nid hmem))
            (nid, x) (hTmem x hx) rfl)
      have hTcount : ∀ x, (succsOf E nid).count x = cntFromTo E nid x :=
        fun x => count_succsOf E nid x
      have hTbound : ∀ x ∈ succsOf E nid,
          1 ≤ indeg x ∧ ((succsOf E nid).count x : Int) ≤ indeg x := by
        intro x hx
        have hle2 := cntInto_le_cntTo E (P ++ [nid]) x
        rw [cntInto_append E P nid x hnidnP] at hle2
        have hlt : cntInto E P x ≠ cntTo E x :=
          hrest x (hTids x hx) (hTnP x hx) (hTnq x hx)
        have hle := cntInto_le_cntTo E P x
        rw [hideg x, hTcount x]
        constructor
        · push_cast
          omega
        · push_cast
          omega
      obtain ⟨nq, heq, hnqnd, hiff⟩ := processSuccs_spec (succsOf E nid) q2 indeg hTbound
      have hTnotnq_nid : nid ∉ nq := by
        intro hc
        exact hnidnP (hsrc (nid, nid) (hTmem nid ((hiff nid).mp hc).1) rfl)
      have hnqT : ∀ x ∈ nq, x ∈ succsOf E nid := fun x hx => ((hiff x).mp hx).1
      have hstep : kahnLoop (succsOf E) (fuel + 1) (nid :: q2) indeg P.length
          = kahnLoop (succsOf E) fuel (q2 ++ nq)
              (fun x => indeg x - ((succsOf E nid).count x : Int)) (P.length + 1) := by
        simp only [kahnLoop, heq]
      have hP2nd : (P ++ [nid]).Nodup := by
        rw [List.nodup_append]
        refine ⟨hPnd, List.nodup_singleton nid, ?_⟩
        intro a ha hc
        rw [List.mem_singleton] at hc
        exact hnidnP (hc ▸ ha)
      have hP2len : (P ++ [nid]).length = P.length + 1 := by simp
      have hP2sub : ∀ x ∈ P ++ [nid], x ∈ ids := by
        intro x hx
        rcases List.mem_append.mp hx with hm | hm
        · exact hPids x hm
        · rw [List.mem_singleton] at hm
          exact hm ▸ hnidids
      have hlenle : (P ++ [nid]).length ≤ ids.length :=
        (List.subperm_of_subset hP2nd hP2sub).length_le
      obtain ⟨Pf, hPf, hPfnd, hPfids, hPftopo, hPfrest⟩ :=
        ihf (P ++ [nid]) (q2 ++ nq) (fun x => indeg x - ((succsOf E nid).count x : Int))
          hP2nd
          (by
            rw [List.nodup_append]
            refine ⟨hq2nd, hnqnd, ?_⟩
            intro a ha hc
            exact hTnq a (hnqT a hc) (List.mem_cons_of_mem nid ha))
          (by
            intro x hx hc
            rcases List.mem_append.mp hc with hm | hm
            · rcases List.mem_append.mp hx with hp | hp
              · exact hdisj x hp (List.mem_cons_of_mem nid hm)
              · rw [List.mem_singleton] at hp
                exact hnidnq2 (hp ▸ hm)
            · rcases List.mem_append.mp hx with hp | hp
              · exact hTnP x (hnqT x hm) hp
              · rw [List.mem_singleton] at hp
                exact hTnotnq_nid (hp ▸ hm))
          hP2sub
          (by
            intro x hx
            rcases List.mem_append.mp hx with hm | hm
            · exact hqids x (List.mem_cons_of_mem nid hm)
            · exact hTids x (hnqT x hm))
          (by
            intro x
            simp only []
            rw [cntInto_append E P nid x hnidnP, hideg x, hTcount x]
            push_cast
            ring)
          (by
            intro x hx
            rw [cntInto_append E P nid x hnidnP]
            rcases List.mem_append.mp hx with hm | hm
            · have h0 : cntFromTo E nid x = 0 := by
                refine cntFromTo_eq_zero_of_not_mem E nid x ?_
                intro hc
                exact hTnq x (mem_succsOf.mpr hc) (List.mem_cons_of_mem nid hm)
              rw [hqzero x (List.mem_cons_of_mem nid hm), h0]
              omega
            · have hval := ((hiff x).mp hm).2
              rw [hideg x, hTcount x] at hval
              have hle := cntInto_le_cntTo E P x
              push_cast at hval
              omega)
          (by
            intro x hx hxnP2 hxnq2
            have hxnP : x ∉ P := fun hc => hxnP2 (List.mem_append.mpr (Or.inl hc))
            have hxnnid : x ≠ nid := fun hc =>
              hxnP2 (List.mem_append.mpr (Or.inr (by rw [List.mem_singleton, hc])))
            have hxq2 : x ∉ q2 := fun hc => hxnq2 (List.mem_append.mpr (Or.inl hc))
            have hxnnq : x ∉ nq := fun hc => hxnq2 (List.mem_append.mpr (Or.inr hc))
            rw [cntInto_append E P nid x hnidnP]
            by_cases hT : x ∈ succsOf E nid
            · have hne : ¬ (indeg x = ((succsOf E nid).count x : Int)) := by
                intro hc
                exact hxnnq ((hiff x).mpr ⟨hT, hc⟩)
              rw [hideg x, hTcount x] at hne
              have hle := cntInto_le_cntTo E P x
              intro hc
              apply hne
              push_cast
              omega
            · have h0 : cntFromTo E nid x = 0 := by
                refine cntFromTo_eq_zero_of_not_mem E nid x ?_
                intro hc
                exact hT (mem_succsOf.mpr hc)
              rw [h0]
              have hxq : x ∉ nid :: q2 := by
                intro hc
                rcases List.mem_cons.mp hc with hm | hm
                · exact hxnnid hm
                · exact hxq2 hm
              have := hrest x hx hxnP hxq
              omega)
          (by
            intro a b hab hbP2
            rcases List.mem_append.mp hbP2 with hm | hm
            · have hold := htopo a b hab hm
              refine ⟨List.mem_append.mpr (Or.inl hold.1), ?_⟩
              rw [List.indexOf_append_of_mem hold.1, List.indexOf_append_of_mem hm]
              exact hold.2
            · rw [List.mem_singleton] at hm
              subst hm
              have haP : a ∈ P := hsrc (a, b) hab rfl
              refine ⟨List.mem_append.mpr (Or.inl haP), ?_⟩
              rw [List.indexOf_append_of_mem haP, List.indexOf_append_of_not_mem hnidnP,
                List.indexOf_cons_self]
              have := List.indexOf_lt_length.mpr haP
              omega)
          (by
            rw [hP2len]
            rw [hP2len] at hlenle
            omega)
      refine ⟨Pf, ?_, hPfnd, hPfids, hPftopo, hPfrest⟩
      rw [hstep]
      rw [← hP2len]
      exact hPf

/-! ## The validator characterisation -/

theorem mem_buildEdges {g : StepGraph} {a b : String} :
    (a, b) ∈ buildEdges g ↔ DepRel g a b := by
  unfold buildEdges DepRel
  rw [List.mem_flatten]
  constructor
  · rintro ⟨l, hl, hab⟩
    rcases List.mem_map.mp hl with ⟨n, hn, hdef⟩
    rw [← hdef] at hab
    rcases List.mem_map.mp hab with ⟨d, hd, hpair⟩
    have h1 : d = a := congrArg Prod.fst hpair
    have h2 : n.id = b := congrArg Prod.snd hpair
    exact ⟨n, hn, h2, h1 ▸ hd⟩
  · rintro ⟨n, hn, hid, hdep⟩
    refine ⟨n.dependencies.map (fun d => (d, n.id)), ?_, ?_⟩
    · exact List.mem_map.mpr ⟨n, hn, rfl⟩
    · refine List.mem_map.mpr ⟨a, hdep, ?_⟩
      rw [hid]

theorem kahn_count_iff_acyclic (g : StepGraph) (seen : List String)
    (hseen : seen = g.map (fun n => n.id)) (hnd : seen.Nodup)
    (hdeps : ∀ n ∈ g, ∀ d ∈ n.dependencies, d ∈ seen) :
    kahnLoop (succsOf (buildEdges g)) (seen.length + 1)
        (seen.filter (fun x => decide (indegInit (buildEdges g) x = 0)))
        (indegInit (buildEdges g)) 0 = seen.length
      ↔ AcyclicGraph g := by
  have hE1 : ∀ e ∈ buildEdges g, e.1 ∈ seen := by
    intro e he
    have hd : DepRel g e.1 e.2 := mem_buildEdges.mp (by cases e; exact he)
    rcases hd with ⟨n, hn, _, hdep⟩
    exact hdeps n hn e.1 hdep
  have hE2 : ∀ e ∈ buildEdges g, e.2 ∈ seen := by
    intro e he
    have hd : DepRel g e.1 e.2 := mem_buildEdges.mp (by cases e; exact he)
    rcases hd with ⟨n, hn, hid, _⟩
    rw [hseen, ← hid]
    exact List.mem_map.mpr ⟨n, hn, rfl⟩
  obtain ⟨Pf, hPf, hPfnd, hPfids, hPftopo, hPfrest⟩ :=
    kahn_master (buildEdges g) seen hE2 (seen.length + 1) []
      (seen.filter (fun x => decide (indegInit (buildEdges g) x = 0)))
      (indegInit (buildEdges g))
      List.nodup_nil
      (hnd.filter _)
      (by intro x hx; exact absurd hx (List.not_mem_nil x))
      (by intro x hx; exact absurd hx (List.not_mem_nil x))
      (by intro x hx; exact List.mem_of_mem_filter hx)
      (by
        intro x
        rw [indegInit_eq_cntTo, cntInto_nil]
        push_cast
        ring)
      (by
        intro x hx
        have hz := List.of_mem_filter hx
        rw [decide_eq_true_eq, indegInit_eq_cntTo] at hz
        rw [cntInto_nil]
        omega)
      (by
        intro x hx hxp hxq
        rw [cntInto_nil]
        intro hc
        apply hxq
        refine List.mem_filter.mpr ⟨hx, ?_⟩
        rw [decide_eq_true_eq, indegInit_eq_cntTo]
        omega)
      (by intro a b _ hb; exact absurd hb (List.not_mem_nil b))
      (by simp)
  simp only [List.length_nil] at hPf
  rw [hPf]
  have hsub : List.Subperm Pf seen := List.subperm_of_subset hPfnd hPfids
  constructor
  · -- all nodes processed: the graph is acyclic
    intro hlen
    have hperm : Pf.Perm seen := hsub.perm_of_length_le (le_of_eq hlen.symm)
    have hall : ∀ y ∈ seen, y ∈ Pf := fun y hy => hperm.mem_iff.mpr hy
    intro z hz
    have htg : Relation.TransGen (fun a b => (a, b) ∈ buildEdges g) z z :=
      Relation.TransGen.mono (fun a b hab => mem_buildEdges.mpr hab) hz
    have hzseen : z ∈ seen := by
      cases htg with
      | single h => exact hE2 _ h
      | tail _ h => exact hE2 _ h
    have hidxlt : ∀ a b, Relation.TransGen (fun a b => (a, b) ∈ buildEdges g) a b → b ∈ Pf →
        a ∈ Pf ∧ Pf.indexOf a < Pf.indexOf b := by
      intro a b htg2
      induction htg2 with
      | single h =>
        intro hb
        exact hPftopo _ _ h hb
      | tail htg3 h ih =>
        intro hb
        have hc := hPftopo _ _ h hb
        have ha := ih hc.1
        exact ⟨ha.1, lt_trans ha.2 hc.2⟩
    have := (hidxlt z z htg (hall z hzseen)).2
    omega
  · -- acyclic: every node is processed
    intro hacy
    have hle : Pf.length ≤ seen.length := hsub.length_le
    by_contra hne
    have hlt : Pf.length < seen.length := lt_of_le_of_ne hle hne
    have hx0 : ∃ x0, x0 ∈ seen ∧ x0 ∉ Pf := by
      by_contra hc
      push_neg at hc
      have hsp : List.Subperm seen Pf := List.subperm_of_subset hnd hc
      have := hsp.length_le
      omega
    rcases hx0 with ⟨x0, hx0⟩
    have hstep2 : ∀ y, y ∈ seen ∧ y ∉ Pf → ∃ a, (a ∈ seen ∧ a ∉ Pf) ∧ (a, y) ∈ buildEdges g := by
      rintro y ⟨hy1, hy2⟩
      rcases exists_src_outside_of_ne (buildEdges g) Pf y (hPfrest y hy1 hy2) with
        ⟨e, heE, he2, he1⟩
      have hpe : (e.1, y) = e := by
        rw [← he2]
      exact ⟨e.1, ⟨hE1 e heE, he1⟩, by rw [hpe]; exact heE⟩
    let f : ℕ → {y : String // y ∈ seen ∧ y ∉ Pf} := fun n =>
      Nat.rec ⟨x0, hx0⟩ (fun _ prev =>
        ⟨(hstep2 prev.1 prev.2).choose, (hstep2 prev.1 prev.2).choose_spec.1⟩) n
    have hfstep : ∀ n : ℕ, ((f (n + 1)).1, (f n).1) ∈ buildEdges g := fun n =>
      (hstep2 (f n).1 (f n).2).choose_spec.2
    have hchain : ∀ d n : ℕ,
        Relation.TransGen (fun a b => (a, b) ∈ buildEdges g) (f (n + d + 1)).1 (f n).1 := by
      intro d
      induction d with
      | zero => intro n; exact Relation.TransGen.single (hfstep n)
      | succ d ih =>
        intro n
        exact Relation.TransGen.head (hfstep (n + d + 1)) (ih n)
    have hcard : (seen.toFinset).card < (Finset.univ : Finset (Fin (seen.length + 1))).card := by
      rw [Finset.card_univ, Fintype.card_fin]
      exact Nat.lt_succ_of_le seen.toFinset_card_le
    have hmaps : ∀ i : Fin (seen.length + 1),
        i ∈ (Finset.univ : Finset (Fin (seen.length + 1))) →
          (fun k : Fin (seen.length + 1) => (f k.1).1) i ∈ seen.toFinset := by
      intro i _
      exact List.mem_toFinset.mpr (f i.1).2.1
    obtain ⟨i, _, j, _, hij, hfij⟩ :=
      Finset.exists_ne_map_eq_of_card_lt_of_maps_to hcard hmaps
    have habs : ∀ u v : Fin (seen.length + 1), u < v → (f u.1).1 = (f v.1).1 → False := by
      intro u v huv heqv
      have hv : v.1 = u.1 + (v.1 - u.1 - 1) + 1 := by
        have : u.1 < v.1 := huv
        omega
      have htg := hchain (v.1 - u.1 - 1) u.1
      rw [← hv] at htg
      rw [← heqv] at htg
      exact hacy (f u.1).1
        (Relation.TransGen.mono (fun a b hab => mem_buildEdges.mp hab) htg)
    rcases hij.lt_or_lt with hlt2 | hlt2
    · exact habs i j hlt2 (by simpa using hfij)
    · exact habs j i hlt2 (by simpa using hfij.symm)

/-- `validate_step_graph` accepts a graph exactly when every node is
well-formed, node ids are pairwise distinct, every dependency id occurs in
the graph, and the dependency relation is acyclic. -/
theorem validateStepGraph_ok_iff (g : StepGraph) :
    validateStepGraph g = .ok () ↔
      (∀ n ∈ g, validateStepNode n = .ok ()) ∧ (g.map (fun n => n.id)).Nodup ∧
      (∀ n ∈ g, ∀ d ∈ n.dependencies, d ∈ g.map (fun n => n.id)) ∧ AcyclicGraph g := by
  cases hcn : checkNodes g [] with
  | error e =>
    simp only [validateStepGraph, hcn]
    constructor
    · intro h
      exact Except.noConfusion h
    · rintro ⟨hwf, hnd, _, _⟩
      rcases checkNodes_ok_iff.mpr ⟨hwf, fun n _ => List.not_mem_nil n.id, hnd⟩ with ⟨s, hs⟩
      rw [hcn] at hs
      exact Except.noConfusion hs
  | ok seen =>
    have hseen : seen = g.map (fun n => n.id) := by
      have := checkNodes_ok_val hcn
      simpa using this
    have hparts := checkNodes_ok_iff.mp ⟨seen, hcn⟩
    have hnd : seen.Nodup := hseen ▸ hparts.2.2
    cases hcd : checkDeps seen g with
    | error e =>
      simp only [validateStepGraph, hcn, hcd]
      constructor
      · intro h
        exact Except.noConfusion h
      · rintro ⟨_, _, hdeps, _⟩
        have hok : checkDeps seen g = .ok () := by
          refine checkDeps_ok_iff.mpr ?_
          rw [hseen]
          exact hdeps
        rw [hcd] at hok
        exact Except.noConfusion hok
    | ok u =>
      cases u
      have hdeps : ∀ n ∈ g, ∀ d ∈ n.dependencies, d ∈ seen := checkDeps_ok_iff.mp hcd
      have hmain := kahn_count_iff_acyclic g seen hseen hnd hdeps
      simp only [validateStepGraph, hcn, hcd]
      by_cases hvis : kahnLoop (succsOf (buildEdges g)) (seen.length + 1)
          (seen.filter (fun x => decide (indegInit (buildEdges g) x = 0)))
          (indegInit (buildEdges g)) 0 = seen.length
      · rw [if_pos hvis]
        constructor
        · intro _
          exact ⟨hparts.1, hseen ▸ hnd, fun n hn d hd => hseen ▸ hdeps n hn d hd, hmain.mp hvis⟩
        · intro _
          rfl
      · rw [if_neg hvis]
        constructor
        · intro h
          exact Except.noConfusion h
        · rintro ⟨_, _, _, hacy⟩
          exact absurd (hmain.mpr hacy) hvis

/-! ## Engine loop lemmas -/

theorem mem_of_mem_listRules {reg : Registry} {operation : String} {r : Rule}
    (h : r ∈ listRules reg operation) : r ∈ reg := by
  rw [listRules_eq_idx] at h
  rcases List.mem_map.mp h with ⟨p, hp, hsnd⟩
  have hp2 := (perm_sortRulesDescIdx _).mem_iff.mp hp
  have hp3 := List.mem_filter.mp hp2
  have hmem : p.2 ∈ (withIdx 0 reg).map Prod.snd := List.mem_map.mpr ⟨p, hp3.1, rfl⟩
  rw [map_snd_withIdx] at hmem
  rw [← hsnd]
  exact hmem

theorem selectRule_mem {reg : Registry} {operation expr : String} {r : Rule}
    (h : selectRule reg operation expr = some r) : r ∈ reg :=
  mem_of_mem_listRules (List.mem_of_find?_eq_some h)

theorem selectRule_none_of_no_op {reg : Registry} {operation : String}
    (h : ∀ r ∈ reg, r.operation ≠ operation) (expr : String) :
    selectRule reg operation expr = none := by
  unfold selectRule listRules
  have hf : reg.filter (fun r => decide (r.operation = operation)) = [] := by
    rw [List.filter_eq_nil_iff]
    intro r hr
    simp [h r hr]
  rw [hf]
  rfl

theorem runLoop_sel_none (B : Backend) (reg : Registry) (operation : String)
    (fuel idx : Nat) (st : LoopState)
    (hsel : selectRule reg operation st.current = none) :
    runLoop B reg operation fuel idx st = .ok st := by
  cases fuel with
  | zero => rfl
  | succ f => simp only [runLoop, hsel]

theorem runLoop_noop_break (B : Backend) (reg : Registry) (operation : String)
    (fuel idx : Nat) (st : LoopState) (r : Rule)
    (hsel : selectRule reg operation st.current = some r)
    (hnoop : ((r.apply st.current st.graph).output = st.current) ∨
             metaNoop (r.apply st.current st.graph).metadata = true) :
    runLoop B reg operation (fuel + 1) idx st
      = .ok { st with graph := (r.apply st.current st.graph).graph } := by
  have hcond : ((r.apply st.current st.graph).output = st.current
      || metaNoop (r.apply st.current st.graph).metadata) = true := by
    rcases hnoop with h | h
    · simp [h]
    · simp [h]
  simp only [runLoop, hsel, hcond, if_true]

theorem runLoop_resolved_break (B : Backend) (reg : Registry) (operation : String)
    (fuel idx : Nat) (st : LoopState) (r : Rule) (po : SExpr)
    (hsel : selectRule reg operation st.current = some r)
    (hout : (r.apply st.current st.graph).output ≠ st.current)
    (hnoop : metaNoop (r.apply st.current st.graph).metadata = false)
    (hpo : B.sympify (r.apply st.current st.graph).output = some po)
    (hpod : hasDeriv po = false)
    (hnode : validateStepNode (mkLoopNode (stepIdStr (idx + 1)) operation r.name st.current
        (r.apply st.current st.graph) st.prevStep) = .ok ())
    (hgval : validateStepGraph ((r.apply st.current st.graph).graph ++
        [mkLoopNode (stepIdStr (idx + 1)) operation r.name st.current
          (r.apply st.current st.graph) st.prevStep]) = .ok ()) :
    runLoop B reg operation (fuel + 1) idx st
      = .ok { graph := (r.apply st.current st.graph).graph ++
                [mkLoopNode (stepIdStr (idx + 1)) operation r.name st.current
                  (r.apply st.current st.graph) st.prevStep],
              current := (r.apply st.current st.graph).output,
              prevStep := some (stepIdStr (idx + 1)) } := by
  have hcond : ((r.apply st.current st.graph).output = st.current
      || metaNoop (r.apply st.current st.graph).metadata) = false := by
    simp [hout, hnoop]
  have hcond2 :
      ((match B.sympify (r.apply st.current st.graph).output with
        | some po => !hasDeriv po
        | none => false)
      && exceptOk (validateStepNode (mkLoopNode (stepIdStr (idx + 1)) operation r.name st.current
          (r.apply st.current st.graph) st.prevStep))
      && exceptOk (validateStepGraph ((r.apply st.current st.graph).graph ++
          [mkLoopNode (stepIdStr (idx + 1)) operation r.name st.current
            (r.apply st.current st.graph) st.prevStep]))) = true := by
    rw [hpo, hnode, hgval]
    simp [hpod, exceptOk]
  simp only [runLoop, hsel, hcond, Bool.false_eq_true, if_false, hcond2, if_true]

/-- A minimal concrete backend used by closed witnesses. -/
def trivialBackend : Backend where
  sympify := fun _ => none
  simplifyE := fun e => e
  diffE := fun e _ _ => e
  ruleMatches := fun _ _ => false
  ruleApply := fun _ s g => { graph := g, output := s, explanation := "", deps := [], metadata := [] }

/-! ## Claim C7 -/

/-- C7: in iterative mode, when the selected rule application returns an
output textually identical to the current expression or metadata marking a
no-op, the loop stops without recording a StepNode: for a rule that does
not itself append to the graph, the loop returns the state unchanged. -/
theorem c7_noop_terminal (B : Backend) (reg : Registry) (operation : String)
    (fuel idx : Nat) (st : LoopState) (r : Rule)
    (hsel : selectRule reg operation st.current = some r)
    (hgraph : (r.apply st.current st.graph).graph = st.graph)
    (hnoop : (r.apply st.current st.graph).output = st.current ∨
             metaNoop (r.apply st.current st.graph).metadata = true) :
    runLoop B reg operation (fuel + 1) idx st = .ok st := by
  rw [runLoop_noop_break B reg operation fuel idx st r hsel hnoop, hgraph]

/-! ## Claim C6 -/

/-- C6: determinism of `run`.  All engine and rule functions of the
embedding are pure, so two invocations against equal registries produce
identical EngineResults (byte-identical graphs). -/
theorem c6_run_deterministic (B : Backend) (reg1 reg2 : Registry) (cfg : EngineConfig)
    (operation expression var : String) (order : Int) (mB : Option String)
    (h : reg1 = reg2) :
    run B reg1 cfg operation expression var order mB
      = run B reg2 cfg operation expression var order mB := by
  rw [h]

/-! ## Claim C9 -/

/-- C9: for differentiation with order outside [1, 10], `run` fails with
the order-range error for every backend and registry (so no rule is
selected or applied and no StepNode is created). -/
theorem c9_order_out_of_range (B : Backend) (reg : Registry) (cfg : EngineConfig)
    (expression var : String) (order : Int) (mB : Option String)
    (h : order < 1 ∨ 10 < order) :
    run B reg cfg "differentiate" expression var order mB =
      .error (if order < 1 then "Order must be at least 1, got " ++ toString order
              else "Order must be at most 10, got " ++ toString order) := by
  rcases h with h | h
  · simp [run, matrixOps, h]
  · have h1 : ¬ order < 1 := by omega
    simp [run, matrixOps, h, h1]

/-! ## Claim C2 -/

/-- C2 fails on the code: an unrecognised operation with no registered
rule returns a successful empty-graph EngineResult instead of raising. -/
theorem c2_counterexample :
    run trivialBackend [] {} "bogus" "x" "x" 1 none
      = .ok { operation := "bogus", input := "x", output := "x", graph := [] } := rfl

/-- C2 (amended): for an operation that is not a matrix operation, not
`differentiate`, and has no registered rule, `run` returns a successful
EngineResult whose output equals the input and whose graph is empty (only
matrix operations with no rule raise). -/
theorem c2_unknown_operation_returns (B : Backend) (reg : Registry) (cfg : EngineConfig)
    (operation expression var : String) (order : Int) (mB : Option String)
    (hnotmat : operation ∉ matrixOps) (hnotdiff : operation ≠ "differentiate")
    (hnorule : ∀ r ∈ reg, r.operation ≠ operation) :
    run B reg cfg operation expression var order mB =
      .ok { operation := operation, input := expression, output := expression, graph := [] } := by
  have hsel : selectRule reg operation expression = none :=
    selectRule_none_of_no_op hnorule expression
  have hloop := runLoop_sel_none B reg operation cfg.maxSteps 0
    { graph := [], current := expression, prevStep := none } hsel
  simp only [run, if_neg hnotmat, if_neg hnotdiff, hloop]

/-! ## Claim C1 -/

def dupNode : StepNode where
  id := "a"
  operation := "op"
  rule := "r"
  input := "x"
  output := "y"
  explanation := ""
  dependencies := []
  metadata := []

/-- An adversarial one-shot matrix rule that appends two nodes with the
same id directly to the graph. -/
def badMatrixRule : Rule where
  name := "bad_det"
  operation := "matrix_determinant"
  priority := 1
  matchFn := fun _ => true
  apply := fun _ g =>
    { graph := g ++ [dupNode, dupNode], output := "-2", explanation := "", deps := [],
      metadata := [] }

/-- C1 fails on the code for matrix operations: the structured branch of
`run` returns the graph exactly as the rule produced it, with no
validation, so an adversarial matrix rule yields a successful EngineResult
whose graph has duplicate node ids. -/
theorem c1_counterexample :
    run trivialBackend [badMatrixRule] {} "matrix_determinant" "[[1,2],[3,4]]" "x" 1 none
      = .ok { operation := "matrix_determinant", input := "[[1,2],[3,4]]", output := "-2",
              graph := [dupNode, dupNode] } ∧
    validateStepGraph [dupNode, dupNode] = .error "Duplicate StepNode id: a" :=
  ⟨rfl, rfl⟩

/-! ## Step-id formatting lemmas -/

/-- Value of a little-endian digit string. -/
def ofDecRev : List Char → Nat
  | [] => 0
  | c :: rest => (c.toNat - 48) + 10 * ofDecRev rest

theorem digitChar_toNat {n : Nat} (h : n < 10) : (digitChar n).toNat = 48 + n := by
  interval_cases n <;> decide

theorem ofDecRev_toDecRev (n : Nat) : ofDecRev (toDecRev n) = n := by
  induction n using Nat.strong_induction_on with
  | _ n ih =>
    unfold toDecRev
    by_cases h : n < 10
    · rw [dif_pos h]
      simp [ofDecRev, digitChar_toNat h]
    · rw [dif_neg h]
      simp only [ofDecRev]
      rw [digitChar_toNat (Nat.mod_lt n (by omega)),
        ih (n / 10) (Nat.div_lt_self (by omega) (by omega))]
      omega

theorem ofDecRev_append_zeros (l : List Char) (k : Nat) :
    ofDecRev (l ++ List.replicate k (Char.ofNat 48)) = ofDecRev l := by
  induction l with
  | nil =>
    simp only [List.nil_append]
    induction k with
    | zero => rfl
    | succ k ih =>
      rw [List.replicate_succ]
      simp only [ofDecRev, ih]
      decide
  | cons c rest ih => simp [ofDecRev, ih]

/-- Left inverse of the zero-padded decimal rendering. -/
def unpad (s : String) : Nat := ofDecRev s.data.reverse

theorem unpad_pad3 (n : Nat) : unpad (pad3 n) = n := by
  have hz : ∀ k : Nat, ∀ l : List Char,
      ofDecRev (l ++ List.replicate k (Char.ofNat 48)) = ofDecRev l := fun k l =>
    ofDecRev_append_zeros l k
  unfold pad3 unpad natDec
  by_cases h1 : n < 10
  · rw [if_pos h1, String.data_append]
    have hdd : (String.mk (toDecRev n).reverse).data = (toDecRev n).reverse := rfl
    rw [hdd, List.reverse_append, List.reverse_reverse]
    have h00 : ("00" : String).data.reverse = List.replicate 2 (Char.ofNat 48) := by decide
    rw [h00, hz 2 (toDecRev n)]
    exact ofDecRev_toDecRev n
  · rw [if_neg h1]
    by_cases h2 : n < 100
    · rw [if_pos h2, String.data_append]
      have hdd : (String.mk (toDecRev n).reverse).data = (toDecRev n).reverse := rfl
      rw [hdd, List.reverse_append, List.reverse_reverse]
      have h0 : ("0" : String).data.reverse = List.replicate 1 (Char.ofNat 48) := by decide
      rw [h0, hz 1 (toDecRev n)]
      exact ofDecRev_toDecRev n
    · rw [if_neg h2]
      have hdd : (String.mk (toDecRev n).reverse).data = (toDecRev n).reverse := rfl
      rw [hdd, List.reverse_reverse]
      exact ofDecRev_toDecRev n

theorem pad3_injective {a b : Nat} (h : pad3 a = pad3 b) : a = b := by
  have h2 := congrArg unpad h
  rwa [unpad_pad3, unpad_pad3] at h2

theorem stepIdStr_injective {a b : Nat} (h : stepIdStr a = stepIdStr b) : a = b := by
  apply pad3_injective
  unfold stepIdStr at h
  have hd := congrArg String.data h
  rw [String.data_append, String.data_append] at hd
  exact String.ext (List.append_cancel_left hd)

theorem stepIdStr_fresh (m : Nat) :
    stepIdStr (m + 1) ∉ (List.range' 1 m).map stepIdStr := by
  intro hc
  rcases List.mem_map.mp hc with ⟨k, hk, heq⟩
  have hk2 := List.mem_range'_1.mp hk
  have := stepIdStr_injective heq
  omega

theorem stepIdStr_mem_range (m : Nat) (hm : 1 ≤ m) :
    stepIdStr m ∈ (List.range' 1 m).map stepIdStr := by
  refine List.mem_map.mpr ⟨m, ?_, rfl⟩
  exact List.mem_range'_1.mpr ⟨hm, by omega⟩

theorem range'_map_concatF {α : Type} (f : Nat → α) (m : Nat) :
    (List.range' 1 (m + 1)).map f = (List.range' 1 m).map f ++ [f (m + 1)] := by
  have h : List.range' 1 (m + 1) = List.range' 1 m ++ [1 + 1 * m] := List.range'_concat 1 m
  have h2 : 1 + 1 * m = m + 1 := by omega
  rw [h, h2, List.map_append, List.map_cons, List.map_nil]

theorem range'_map_concat (m : Nat) :
    (List.range' 1 (m + 1)).map stepIdStr
      = (List.range' 1 m).map stepIdStr ++ [stepIdStr (m + 1)] := by
  have h : List.range' 1 (m + 1) = List.range' 1 m ++ [1 + 1 * m] := List.range'_concat 1 m
  have h2 : 1 + 1 * m = m + 1 := by omega
  rw [h, h2, List.map_append, List.map_cons, List.map_nil]

/-! ## Graph-validity preservation -/

theorem exceptOk_eq_ok {x : Except String Unit} (h : exceptOk x = true) : x = .ok () := by
  cases x with
  | ok u => cases u; rfl
  | error e => simp [exceptOk] at h

theorem depRel_append {g : StepGraph} {n : StepNode} {a b : String} :
    DepRel (g ++ [n]) a b ↔ DepRel g a b ∨ (b = n.id ∧ a ∈ n.dependencies) := by
  unfold DepRel
  constructor
  · rintro ⟨m, hm, hid, hdep⟩
    rcases List.mem_append.mp hm with h | h
    · exact Or.inl ⟨m, h, hid, hdep⟩
    · rw [List.mem_singleton] at h
      subst h
      exact Or.inr ⟨hid.symm, hdep⟩
  · rintro (⟨m, hm, hid, hdep⟩ | ⟨hb, hdep⟩)
    · exact ⟨m, List.mem_append.mpr (Or.inl hm), hid, hdep⟩
    · exact ⟨n, List.mem_append.mpr (Or.inr (List.mem_singleton.mpr rfl)), hb.symm, hdep⟩

theorem acyclic_append {g : StepGraph} {n : StepNode}
    (hacy : AcyclicGraph g)
    (hdeps_old : ∀ m ∈ g, ∀ d ∈ m.dependencies, d ∈ g.map (fun x => x.id))
    (hfresh : n.id ∉ g.map (fun x => x.id))
    (hnodeps : ∀ d ∈ n.dependencies, d ∈ g.map (fun x => x.id)) :
    AcyclicGraph (g ++ [n]) := by
  have hnoout : ∀ c, ¬ DepRel (g ++ [n]) n.id c := by
    intro c hc
    rcases hc with ⟨m, hm, hid, hdep⟩
    rcases List.mem_append.mp hm with h | h
    · exact hfresh (hdeps_old m h n.id hdep)
    · rw [List.mem_singleton] at h
      rw [h] at hdep
      exact hfresh (hnodeps _ hdep)
  have htrans : ∀ x y, Relation.TransGen (DepRel (g ++ [n])) x y → y ≠ n.id →
      Relation.TransGen (DepRel g) x y := by
    intro x y htg
    induction htg with
    | single h =>
      intro hy
      rcases depRel_append.mp h with h2 | ⟨hb, _⟩
      · exact Relation.TransGen.single h2
      · exact absurd hb hy
    | @tail b c htg2 h ih =>
      intro hy
      have hbne : b ≠ n.id := by
        intro hb
        exact hnoout c (hb ▸ h)
      rcases depRel_append.mp h with h2 | ⟨hb, _⟩
      · exact Relation.TransGen.tail (ih hbne) h2
      · exact absurd hb hy
  intro x hx
  by_cases hxn : x = n.id
  · subst hxn
    rcases Relation.TransGen.head'_iff.mp hx with ⟨c, hc, _⟩
    exact hnoout c hc
  · exact hacy x (htrans x x hx hxn)

theorem validate_append {g : StepGraph} {n : StepNode}
    (hok : validateStepGraph g = .ok ())
    (hn : validateStepNode n = .ok ())
    (hfresh : n.id ∉ g.map (fun m => m.id))
    (hdeps : ∀ d ∈ n.dependencies, d ∈ g.map (fun m => m.id)) :
    validateStepGraph (g ++ [n]) = .ok () := by
  rcases (validateStepGraph_ok_iff g).mp hok with ⟨hwf, hnd, hdp, hacy⟩
  refine (validateStepGraph_ok_iff (g ++ [n])).mpr ⟨?_, ?_, ?_, ?_⟩
  · intro m hm
    rcases List.mem_append.mp hm with h | h
    · exact hwf m h
    · rw [List.mem_singleton] at h
      rw [h]
      exact hn
  · rw [List.map_append, List.nodup_append]
    refine ⟨hnd, List.nodup_singleton _, ?_⟩
    intro a ha hb
    rw [List.map_singleton, List.mem_singleton] at hb
    exact hfresh (hb ▸ ha)
  · intro m hm d hd
    have hsub : ∀ s, s ∈ g.map (fun x => x.id) → s ∈ (g ++ [n]).map (fun x => x.id) := by
      intro s hs
      rw [List.map_append]
      exact List.mem_append.mpr (Or.inl hs)
    rcases List.mem_append.mp hm with h | h
    · exact hsub d (hdp m h d hd)
    · rw [List.mem_singleton] at h
      subst h
      exact hsub d (hdeps d hd)
  · exact acyclic_append hacy hdp hfresh hdeps

theorem validate_dup_append (g : StepGraph) (n : StepNode) :
    validateStepGraph (g ++ [n] ++ [n]) ≠ .ok () := by
  intro hc
  rcases (validateStepGraph_ok_iff _).mp hc with ⟨_, hnd, _, _⟩
  rw [List.map_append, List.map_append, List.nodup_append] at hnd
  rcases hnd with ⟨_, _, hdisj⟩
  exact hdisj (show n.id ∈ _ by simp) (by simp)

/-! ## Loop invariants -/

/-- Invariant of the iterative loop under graph-preserving rules: the
graph ids are exactly `step_001 .. step_idx` in order, the graph is valid,
and the previous-step marker is the last id. -/
def LoopInv (idx : Nat) (st : LoopState) : Prop :=
  st.graph.map (fun n => n.id) = (List.range' 1 idx).map stepIdStr ∧
  validateStepGraph st.graph = .ok () ∧
  st.prevStep = (if idx = 0 then none else some (stepIdStr idx))

/-- The dependency list of the k-th chain node. -/
def chainDeps (k : Nat) : List String := if k = 1 then [] else [stepIdStr (k - 1)]

/-- Chain invariant (rules that return no explicit dependencies): ids are
consecutive and each node depends exactly on its predecessor. -/
def ChainInv (idx : Nat) (st : LoopState) : Prop :=
  st.graph.map (fun n => n.id) = (List.range' 1 idx).map stepIdStr ∧
  st.graph.map (fun n => n.dependencies) = (List.range' 1 idx).map chainDeps ∧
  st.prevStep = (if idx = 0 then none else some (stepIdStr idx))

theorem runLoop_master (B : Backend) (reg : Registry) (operation : String)
    (hpure : ∀ r ∈ reg, ∀ s g, (r.apply s g).graph = g) :
    ∀ (fuel idx : Nat) (st st2 : LoopState), runLoop B reg operation fuel idx st = .ok st2 →
      st2.graph.length ≤ st.graph.length + fuel ∧
      (LoopInv idx st → ∃ m, LoopInv m st2) ∧
      ((∀ r ∈ reg, ∀ s g, (r.apply s g).deps = []) → ChainInv idx st → ∃ m, ChainInv m st2) := by
  intro fuel
  induction fuel with
  | zero =>
    intro idx st st2 hrun
    simp only [runLoop] at hrun
    injection hrun with h
    subst h
    exact ⟨by omega, fun hi => ⟨idx, hi⟩, fun _ hi => ⟨idx, hi⟩⟩
  | succ fuel ih =>
    intro idx st st2 hrun
    simp only [runLoop] at hrun
    cases hsel : selectRule reg operation st.current with
    | none =>
      rw [hsel] at hrun
      simp only [] at hrun
      injection hrun with h
      subst h
      exact ⟨by omega, fun hi => ⟨idx, hi⟩, fun _ hi => ⟨idx, hi⟩⟩
    | some r =>
      rw [hsel] at hrun
      simp only [] at hrun
      have hg : (r.apply st.current st.graph).graph = st.graph :=
        hpure r (selectRule_mem hsel) st.current st.graph
      by_cases hc1 : ((r.apply st.current st.graph).output = st.current
          || metaNoop (r.apply st.current st.graph).metadata) = true
      · rw [if_pos hc1] at hrun
        injection hrun with h
        have hst2 : st2 = st := by
          rw [← h, hg]
        subst hst2
        exact ⟨by omega, fun hi => ⟨idx, hi⟩, fun _ hi => ⟨idx, hi⟩⟩
      · rw [if_neg hc1] at hrun
        by_cases hc2 : ((match B.sympify (r.apply st.current st.graph).output with
              | some po => !hasDeriv po
              | none => false)
            && exceptOk (validateStepNode (mkLoopNode (stepIdStr (idx + 1)) operation r.name
                st.current (r.apply st.current st.graph) st.prevStep))
            && exceptOk (validateStepGraph ((r.apply st.current st.graph).graph ++
                [mkLoopNode (stepIdStr (idx + 1)) operation r.name st.current
                  (r.apply st.current st.graph) st.prevStep]))) = true
        · rw [if_pos hc2] at hrun
          injection hrun with h
          rw [Bool.and_eq_true, Bool.and_eq_true] at hc2
          have hval := exceptOk_eq_ok hc2.2
          rw [hg] at hval
          refine ⟨?_, ?_, ?_⟩
          · rw [← h]
            simp only [List.length_append, hg, List.length_singleton]
            omega
          · intro hi
            refine ⟨idx + 1, ?_, ?_, ?_⟩
            · rw [← h]
              simp only [List.map_append, hg, hi.1, List.map_singleton, mkLoopNode,
                range'_map_concat]
            · rw [← h]
              simp only [hg]
              exact hval
            · rw [← h]
              simp
          · intro hdeps hi
            refine ⟨idx + 1, ?_, ?_, ?_⟩
            · rw [← h]
              simp only [List.map_append, hg, hi.1, List.map_singleton, mkLoopNode,
                range'_map_concat]
            · rw [← h]
              simp only [List.map_append, hg, hi.2.1, List.map_singleton, mkLoopNode]
              rw [hdeps r (selectRule_mem hsel) st.current st.graph]
              have hpv := hi.2.2
              rw [range'_map_concatF chainDeps idx]
              by_cases hidx : idx = 0
              · subst hidx
                rw [hpv]
                simp [chainDeps]
              · rw [hpv]
                simp only [if_neg hidx, List.isEmpty_nil, if_true]
                have hcd : chainDeps (idx + 1) = [stepIdStr idx] := by
                  unfold chainDeps
                  rw [if_neg (by omega)]
                  simp
                rw [hcd]
            · rw [← h]
              simp
        · rw [if_neg hc2] at hrun
          by_cases hc3 : ((match B.sympify (r.apply st.current st.graph).output with
                | some po => !hasDeriv po
                | none => false)
              && exceptOk (validateStepNode (mkLoopNode (stepIdStr (idx + 1)) operation r.name
                  st.current (r.apply st.current st.graph) st.prevStep))) = true
          · rw [if_pos hc3] at hrun
            cases hvn : validateStepNode (mkLoopNode (stepIdStr (idx + 1)) operation r.name
                st.current (r.apply st.current st.graph) st.prevStep) with
            | error e =>
              rw [hvn] at hrun
              exact Except.noConfusion hrun
            | ok u =>
              cases u
              rw [hvn] at hrun
              cases hvg : validateStepGraph (((r.apply st.current st.graph).graph ++
                  [mkLoopNode (stepIdStr (idx + 1)) operation r.name st.current
                    (r.apply st.current st.graph) st.prevStep]) ++
                  [mkLoopNode (stepIdStr (idx + 1)) operation r.name st.current
                    (r.apply st.current st.graph) st.prevStep]) with
              | error e =>
                rw [hvg] at hrun
                exact Except.noConfusion hrun
              | ok u2 =>
                exact absurd hvg (validate_dup_append _ _)
          · rw [if_neg hc3] at hrun
            cases hvn : validateStepNode (mkLoopNode (stepIdStr (idx + 1)) operation r.name
                st.current (r.apply st.current st.graph) st.prevStep) with
            | error e =>
              rw [hvn] at hrun
              exact Except.noConfusion hrun
            | ok u =>
              cases u
              rw [hvn] at hrun
              cases hvg : validateStepGraph ((r.apply st.current st.graph).graph ++
                  [mkLoopNode (stepIdStr (idx + 1)) operation r.name st.current
                    (r.apply st.current st.graph) st.prevStep]) with
              | error e =>
                rw [hvg] at hrun
                exact Except.noConfusion hrun
              | ok u2 =>
                cases u2
                rw [hvg] at hrun
                have hrun2 : runLoop B reg operation fuel (idx + 1)
                    { graph := (r.apply st.current st.graph).graph ++
                        [mkLoopNode (stepIdStr (idx + 1)) operation r.name st.current
                          (r.apply st.current st.graph) st.prevStep],
                      current := (r.apply st.current st.graph).output,
                      prevStep := some (stepIdStr (idx + 1)) } = .ok st2 := hrun
                obtain ⟨hlen, hinv, hchain⟩ := ih (idx + 1) _ st2 hrun2
                refine ⟨?_, ?_, ?_⟩
                · simp only [List.length_append, hg, List.length_singleton] at hlen
                  omega
                · intro hi
                  refine hinv ⟨?_, ?_, ?_⟩
                  · simp only [List.map_append, hg, hi.1, List.map_singleton, mkLoopNode,
                      range'_map_concat]
                  · rw [hg] at hvg
                    simp only [hg]
                    exact hvg
                  · simp
                · intro hdeps hi
                  refine hchain hdeps ⟨?_, ?_, ?_⟩
                  · simp only [List.map_append, hg, hi.1, List.map_singleton, mkLoopNode,
                      range'_map_concat]
                  · simp only [List.map_append, hg, hi.2.1, List.map_singleton, mkLoopNode]
                    rw [hdeps r (selectRule_mem hsel) st.current st.graph]
                    have hpv := hi.2.2
                    rw [range'_map_concatF chainDeps idx]
                    by_cases hidx : idx = 0
                    · subst hidx
                      rw [hpv]
                      simp [chainDeps]
                    · rw [hpv]
                      simp only [if_neg hidx, List.isEmpty_nil, if_true]
                      have hcd : chainDeps (idx + 1) = [stepIdStr idx] := by
                        unfold chainDeps
                        rw [if_neg (by omega)]
                        simp
                      rw [hcd]
                  · simp

/-! ## Run-level dissection -/

theorem run_ok_cases (B : Backend) (reg : Registry) (cfg : EngineConfig)
    (operation expression var : String) (order : Int) (mB : Option String) (res : EngineResult)
    (hnotmat : operation ∉ matrixOps)
    (hrun : run B reg cfg operation expression var order mB = .ok res) :
    ∃ cur0 st2, runLoop B reg operation cfg.maxSteps 0
        { graph := [], current := cur0, prevStep := none } = .ok st2 ∧
      ((operation ≠ "differentiate" ∧
          res = { operation := operation, input := expression, output := st2.current,
                  graph := st2.graph }) ∨
        (operation = "differentiate" ∧
          res = { operation := operation, input := expression,
                  output := (finalSimplify B st2).2, graph := (finalSimplify B st2).1 })) := by
  by_cases hdiff : operation = "differentiate"
  · subst hdiff
    simp only [run, if_neg hnotmat, eq_self_iff_true, if_true] at hrun
    by_cases ho1 : order < 1
    · rw [if_pos ho1] at hrun
      exact Except.noConfusion hrun
    · rw [if_neg ho1] at hrun
      by_cases ho10 : 10 < order
      · rw [if_pos ho10] at hrun
        exact Except.noConfusion hrun
      · rw [if_neg ho10] at hrun
        cases hp : B.sympify expression with
        | none =>
          simp only [hp] at hrun
          exact Except.noConfusion hrun
        | some parsed =>
          simp only [hp] at hrun
          cases hloop : runLoop B reg "differentiate" cfg.maxSteps 0
              { graph := [], current := printSE (SExpr.deriv parsed var order.toNat),
                prevStep := none } with
          | error e =>
            rw [hloop] at hrun
            exact Except.noConfusion hrun
          | ok st2 =>
            rw [hloop] at hrun
            refine ⟨printSE (SExpr.deriv parsed var order.toNat), st2, hloop, Or.inr ⟨rfl, ?_⟩⟩
            injection hrun with h
            exact h.symm
  · simp only [run, if_neg hnotmat, if_neg hdiff] at hrun
    cases hloop : runLoop B reg operation cfg.maxSteps 0
        { graph := [], current := expression, prevStep := none } with
    | error e =>
      rw [hloop] at hrun
      exact Except.noConfusion hrun
    | ok st2 =>
      rw [hloop] at hrun
      refine ⟨expression, st2, hloop, Or.inl ⟨hdiff, ?_⟩⟩
      injection hrun with h
      exact h.symm

theorem stepIdStr_ne_empty (n : Nat) : stepIdStr n ≠ "" := by
  intro hc
  have hlen := congrArg String.length hc
  rw [stepIdStr, String.length_append] at hlen
  have h5 : ("step_" : String).length = 5 := rfl
  rw [h5] at hlen
  have h0 : ("" : String).length = 0 := rfl
  rw [h0] at hlen
  omega

theorem loopInv_len {m : Nat} {st : LoopState}
    (h : st.graph.map (fun n => n.id) = (List.range' 1 m).map stepIdStr) :
    st.graph.length = m := by
  have h2 := congrArg List.length h
  simpa using h2

theorem finalSimplify_valid (B : Backend) (st : LoopState) (m : Nat) (hm : LoopInv m st) :
    validateStepGraph (finalSimplify B st).1 = .ok () := by
  have hlen : st.graph.length = m := loopInv_len hm.1
  unfold finalSimplify
  cases hs : B.sympify st.current with
  | none => exact hm.2.1
  | some ce =>
    simp only []
    by_cases hd : hasDeriv ce = true
    · rw [if_pos hd]
      exact hm.2.1
    · rw [if_neg hd]
      by_cases heq : printSE (B.simplifyE ce) = st.current
      · rw [if_pos heq]
        exact hm.2.1
      · rw [if_neg heq]
        have hvn : validateStepNode
            { id := stepIdStr (st.graph.length + 1), operation := "differentiate",
              rule := "simplify_result", input := st.current,
              output := printSE (B.simplifyE ce),
              explanation := "Simplify the final result using algebraic and trigonometric identities",
              dependencies := match st.prevStep with | some p => [p] | none => [],
              metadata := simplifyResultMeta } = .ok () := by
          unfold validateStepNode
          rw [if_neg (stepIdStr_ne_empty (st.graph.length + 1))]
          rfl
        rw [hvn]
        refine validate_append hm.2.1 hvn ?_ ?_
        · rw [hm.1, hlen]
          exact stepIdStr_fresh m
        · intro d hd2
          rw [hm.1]
          rcases hmp : st.prevStep with _ | p
          · rw [hmp] at hd2
            exact absurd hd2 (List.not_mem_nil d)
          · rw [hmp] at hd2
            rw [List.mem_singleton] at hd2
            subst hd2
            have hp := hm.2.2
            rw [hmp] at hp
            by_cases hm0 : m = 0
            · rw [if_pos hm0] at hp
              exact Option.noConfusion hp
            · rw [if_neg hm0] at hp
              injection hp with hp2
              rw [hp2]
              exact stepIdStr_mem_range m (by omega)

theorem finalSimplify_chain (B : Backend) (st : LoopState) (m : Nat) (hm : ChainInv m st) :
    ∃ m2, (finalSimplify B st).1.map (fun n => n.id) = (List.range' 1 m2).map stepIdStr ∧
      (finalSimplify B st).1.map (fun n => n.dependencies) = (List.range' 1 m2).map chainDeps := by
  have hlen : st.graph.length = m := loopInv_len hm.1
  unfold finalSimplify
  cases hs : B.sympify st.current with
  | none => exact ⟨m, hm.1, hm.2.1⟩
  | some ce =>
    simp only []
    by_cases hd : hasDeriv ce = true
    · rw [if_pos hd]
      exact ⟨m, hm.1, hm.2.1⟩
    · rw [if_neg hd]
      by_cases heq : printSE (B.simplifyE ce) = st.current
      · rw [if_pos heq]
        exact ⟨m, hm.1, hm.2.1⟩
      · rw [if_neg heq]
        have hvn : validateStepNode
            { id := stepIdStr (st.graph.length + 1), operation := "differentiate",
              rule := "simplify_result", input := st.current,
              output := printSE (B.simplifyE ce),
              explanation := "Simplify the final result using algebraic and trigonometric identities",
              dependencies := match st.prevStep with | some p => [p] | none => [],
              metadata := simplifyResultMeta } = .ok () := by
          unfold validateStepNode
          rw [if_neg (stepIdStr_ne_empty (st.graph.length + 1))]
          rfl
        rw [hvn]
        refine ⟨m + 1, ?_, ?_⟩
        · rw [List.map_append, hm.1, hlen, List.map_singleton, range'_map_concatF stepIdStr m]
        · rw [List.map_append, hm.2.1, List.map_singleton, range'_map_concatF chainDeps m]
          have hpv := hm.2.2
          by_cases hm0 : m = 0
          · subst hm0
            rw [hpv]
            simp [chainDeps]
          · rw [hpv, if_neg hm0]
            have hcd : chainDeps (m + 1) = [stepIdStr m] := by
              unfold chainDeps
              rw [if_neg (by omega)]
              simp
            rw [hcd]

/-! ## Claim C5 -/

/-- C5: the iterative rewrite loop is fuel-bounded: `max_steps` defaults
to 64, and for rules that do not themselves append to the graph, a
successful loop run starting from any state adds at most `fuel` nodes —
with `fuel = max_steps` at the `run` call site, at most `max_steps`
recorded rewrite steps, for every rule set. -/
theorem c5_loop_bounded :
    ({} : EngineConfig).maxSteps = 64 ∧
    ∀ (B : Backend) (reg : Registry) (operation : String) (fuel idx : Nat) (st st2 : LoopState),
      (∀ r ∈ reg, ∀ s g, (r.apply s g).graph = g) →
      runLoop B reg operation fuel idx st = .ok st2 →
      st2.graph.length ≤ st.graph.length + fuel :=
  ⟨rfl, fun B reg operation fuel idx st st2 hpure hrun =>
    (runLoop_master B reg operation hpure fuel idx st st2 hrun).1⟩

/-! ## Claim C1 (amended part) -/

/-- C1 (amended): for every successful iterative-mode run (the operation
is not a matrix operation) with rules that do not themselves append nodes
to the graph, the returned StepGraph satisfies all validator invariants
(well-formed nodes, unique ids, dependencies present, acyclicity) —
including the trailing simplify_result step of differentiation.  (Matrix
one-shot results are returned without validation; see the
counterexample.) -/
theorem c1_iterative_graph_valid (B : Backend) (reg : Registry) (cfg : EngineConfig)
    (operation expression var : String) (order : Int) (mB : Option String) (res : EngineResult)
    (hpure : ∀ r ∈ reg, ∀ s g, (r.apply s g).graph = g)
    (hnotmat : operation ∉ matrixOps)
    (hrun : run B reg cfg operation expression var order mB = .ok res) :
    validateStepGraph res.graph = .ok () := by
  obtain ⟨cur0, st2, hloop, hres⟩ :=
    run_ok_cases B reg cfg operation expression var order mB res hnotmat hrun
  have hinv0 : LoopInv 0 { graph := [], current := cur0, prevStep := none } :=
    ⟨rfl, rfl, rfl⟩
  obtain ⟨m, hm⟩ := (runLoop_master B reg operation hpure cfg.maxSteps 0 _ st2 hloop).2.1 hinv0
  rcases hres with ⟨_, hres⟩ | ⟨_, hres⟩
  · rw [hres]
    exact hm.2.1
  · rw [hres]
    exact finalSimplify_valid B st2 m hm

/-! ## Claim C10 -/

/-- C10: chain shape of iterative runs.  For rules that neither append to
the graph nor return explicit dependencies, a successful non-matrix run
produces a graph whose node ids are exactly `step_001, step_002, ...` in
append order (the trailing simplify_result node continuing the sequence),
whose first node has no dependencies, and whose every later node depends
exactly on its immediate predecessor. -/
theorem c10_chain_shape (B : Backend) (reg : Registry) (cfg : EngineConfig)
    (operation expression var : String) (order : Int) (mB : Option String) (res : EngineResult)
    (hpure : ∀ r ∈ reg, ∀ s g, (r.apply s g).graph = g)
    (hdeps : ∀ r ∈ reg, ∀ s g, (r.apply s g).deps = [])
    (hnotmat : operation ∉ matrixOps)
    (hrun : run B reg cfg operation expression var order mB = .ok res) :
    res.graph.map (fun n => n.id) = (List.range' 1 res.graph.length).map stepIdStr ∧
    res.graph.map (fun n => n.dependencies) = (List.range' 1 res.graph.length).map chainDeps := by
  obtain ⟨cur0, st2, hloop, hres⟩ :=
    run_ok_cases B reg cfg operation expression var order mB res hnotmat hrun
  have hinv0 : ChainInv 0 { graph := [], current := cur0, prevStep := none } :=
    ⟨rfl, rfl, rfl⟩
  obtain ⟨m, hm⟩ :=
    (runLoop_master B reg operation hpure cfg.maxSteps 0 _ st2 hloop).2.2 hdeps hinv0
  rcases hres with ⟨_, hres⟩ | ⟨_, hres⟩
  · rw [hres]
    have hlen : st2.graph.length = m := loopInv_len hm.1
    rw [hlen]
    exact ⟨hm.1, hm.2.1⟩
  · rw [hres]
    obtain ⟨m2, h1, h2⟩ := finalSimplify_chain B st2 m hm
    have hlen : (finalSimplify B st2).1.length = m2 := by
      have h3 := congrArg List.length h1
      simpa using h3
    rw [hlen]
    exact ⟨h1, h2⟩

/-! ## Claim C3 -/

def fwdNodeA : StepNode where
  id := "a"
  operation := "op"
  rule := "r"
  input := "x"
  output := "y"
  explanation := ""
  dependencies := ["b"]
  metadata := []

def fwdNodeB : StepNode where
  id := "b"
  operation := "op"
  rule := "r"
  input := "x"
  output := "y"
  explanation := ""
  dependencies := []
  metadata := []

/-- C3 fails as stated: a graph whose first node depends on an id that
only occurs LATER in the node list is accepted by `validate_step_graph`
(the code checks dependency membership against the full id set, not the
already-present prefix), so the validator does not raise exactly under the
claimed condition (b). -/
theorem c3_counterexample :
    validateStepGraph [fwdNodeA, fwdNodeB] = .ok () ∧
    ¬ (∀ i : Fin ([fwdNodeA, fwdNodeB] : StepGraph).length,
        ∀ d ∈ (([fwdNodeA, fwdNodeB] : StepGraph).get i).dependencies,
          d ∈ (([fwdNodeA, fwdNodeB] : StepGraph).take i.1).map (fun n => n.id)) := by
  constructor
  · rfl
  · intro h
    have h2 := h ⟨0, by decide⟩ "b" (by decide)
    exact absurd h2 (by decide)

/-- C3 (amended): `validate_step_graph` raises exactly when the graph has
an ill-formed node, a duplicate id, a dependency id not present anywhere
in the node list, or a cycle in the dependency relation; on every graph
with well-formed nodes, distinct ids, all dependencies present (anywhere
in the list) and an acyclic dependency relation, it returns without
raising. -/
theorem c3_validate_characterisation (g : StepGraph) :
    ((∃ e, validateStepGraph g = .error e) ↔
      ¬ ((∀ n ∈ g, validateStepNode n = .ok ()) ∧ (g.map (fun n => n.id)).Nodup ∧
          (∀ n ∈ g, ∀ d ∈ n.dependencies, d ∈ g.map (fun n => n.id)) ∧ AcyclicGraph g)) ∧
    ((∀ n ∈ g, validateStepNode n = .ok ()) → (g.map (fun n => n.id)).Nodup →
      (∀ n ∈ g, ∀ d ∈ n.dependencies, d ∈ g.map (fun n => n.id)) → AcyclicGraph g →
      validateStepGraph g = .ok ()) := by
  have hiff := validateStepGraph_ok_iff g
  constructor
  · constructor
    · rintro ⟨e, he⟩ hc
      rw [hiff.mpr hc] at he
      exact Except.noConfusion he
    · intro hc
      cases hv : validateStepGraph g with
      | ok u =>
        cases u
        exact absurd (hiff.mp hv) hc
      | error e => exact ⟨e, rfl⟩
  · intro h1 h2 h3 h4
    exact hiff.mpr ⟨h1, h2, h3, h4⟩

/-! ## Claim C8 -/

theorem expandHigherOrder_no_match (B : Backend) (p : SExpr) (v cur : String)
    (h3 : B.sympify cur = some (SExpr.deriv p v 1)) :
    (expandHigherOrderRule B).matchFn cur = false := by
  simp only [expandHigherOrderRule, h3]
  rfl

theorem diffConstantRw_deriv (p : SExpr) (v : String) (h2 : v ∉ freeSymbols p) :
    diffConstantRw (SExpr.deriv p v 1) = some (SExpr.int 0) := by
  have hpred : diffConstPred (SExpr.deriv p v 1) = true := by
    unfold diffConstPred derivVar derivInner
    simp [h2]
  have hfd : findDeriv diffConstPred (SExpr.deriv p v 1) = some (SExpr.deriv p v 1) := by
    unfold findDeriv
    rw [if_pos hpred]
  unfold diffConstantRw rewriteFirstDeriv
  rw [hfd]
  show some (xreplace (SExpr.deriv p v 1) (SExpr.int 0) (SExpr.deriv p v 1))
      = some (SExpr.int 0)
  unfold xreplace
  rw [if_pos rfl]

theorem diffConstant_matches (B : Backend) (p : SExpr) (v cur : String)
    (h3 : B.sympify cur = some (SExpr.deriv p v 1))
    (h2 : v ∉ freeSymbols p) :
    (diffConstantRule B).matchFn cur = true := by
  simp only [diffConstantRule, h3, Option.some_bind, diffConstantRw_deriv p v h2,
    Option.isSome_some]

theorem find_skip_then_hit {l S : List Rule} {p : Rule → Bool} {d : Rule}
    (h : ∀ x ∈ l, p x = false) (hd : p d = true) :
    (l ++ d :: S).find? p = some d := by
  induction l with
  | nil => simpa using List.find?_cons_of_pos S hd
  | cons x xs ih =>
    rw [List.cons_append, List.find?_cons_of_neg _ (by simp [h x (List.mem_cons_self x xs)])]
    exact ih (fun y hy => h y (List.mem_cons_of_mem x hy))

theorem builtinRegistry_tail_priority (B : Backend) :
    ∀ r ∈ (builtinRegistry B).tail, r.priority ≤ 100 := by
  intro r hr
  simp only [builtinRegistry, List.tail_cons, List.mem_cons, List.not_mem_nil, or_false] at hr
  rcases hr with rfl | rfl | rfl | rfl | rfl | rfl | rfl | rfl | rfl | rfl | rfl | rfl | rfl | rfl | rfl | rfl | rfl | rfl | rfl | rfl | rfl | rfl | rfl | rfl | rfl | rfl | rfl | rfl | rfl | rfl | rfl | rfl | rfl | rfl | rfl | rfl | rfl | rfl | rfl | rfl | rfl | rfl | rfl | rfl | rfl | rfl | rfl
  all_goals norm_num [abstractRule, diffConstantRule]

theorem withIdx_zero_cons (x : Rule) (xs : List Rule) :
    withIdx 0 (x :: xs) = (0, x) :: withIdx 1 xs := rfl

theorem snd_mem_of_mem_withIdx {i : Nat} {l : List Rule} {q : Nat × Rule}
    (h : q ∈ withIdx i l) : q.2 ∈ l := by
  have h2 := List.mem_map_of_mem Prod.snd h
  rwa [map_snd_withIdx] at h2

theorem c8_pred_eq (B : Backend) (q : Nat × Rule)
    (hq : q ∈ opRulesIdx (builtinRegistry B) "differentiate")
    (hord : ruleOrd q (1, diffConstantRule B)) :
    q = (0, expandHigherOrderRule B) := by
  have hqw : q ∈ withIdx 0 (builtinRegistry B) := (List.mem_filter.mp hq).1
  have hreg : builtinRegistry B = expandHigherOrderRule B :: (builtinRegistry B).tail := rfl
  rw [hreg, withIdx_zero_cons] at hqw
  rcases List.mem_cons.mp hqw with heq | hmem
  · exact heq
  · exfalso
    have hp : q.2.priority ≤ 100 :=
      builtinRegistry_tail_priority B q.2 (snd_mem_of_mem_withIdx hmem)
    have hi : 1 ≤ q.1 := le_idx_of_mem_withIdx hmem
    have hdp : (diffConstantRule B).priority = 100 := rfl
    simp only [ruleOrd, hdp] at hord
    rcases hord with h | ⟨h1, h2⟩
    · omega
    · omega

theorem dc_mem_opRulesIdx (B : Backend) :
    (1, diffConstantRule B) ∈ opRulesIdx (builtinRegistry B) "differentiate" := by
  refine List.mem_filter.mpr ⟨?_, by rfl⟩
  show (1, diffConstantRule B) ∈ withIdx 0 (builtinRegistry B)
  exact List.mem_cons_of_mem _ (List.mem_cons_self _ _)

theorem c8_select (B : Backend) (cur : String)
    (hm1 : (expandHigherOrderRule B).matchFn cur = false)
    (hm2 : (diffConstantRule B).matchFn cur = true) :
    selectRule (builtinRegistry B) "differentiate" cur = some (diffConstantRule B) := by
  have hmem : (1, diffConstantRule B)
      ∈ sortRulesDescIdx (opRulesIdx (builtinRegistry B) "differentiate") :=
    (perm_sortRulesDescIdx _).mem_iff.mpr (dc_mem_opRulesIdx B)
  obtain ⟨P, S, hsplit⟩ := List.append_of_mem hmem
  have hpair := pairwise_sortRulesDescIdx (opRulesIdx (builtinRegistry B) "differentiate")
      ((pairwise_idx_withIdx 0 _).filter _)
  rw [hsplit] at hpair
  have hPeq : ∀ p ∈ P, p = (0, expandHigherOrderRule B) := by
    intro p hp
    refine c8_pred_eq B p ?_
      ((List.pairwise_append.mp hpair).2.2 p hp (1, diffConstantRule B) (List.mem_cons_self _ _))
    have hm : p ∈ sortRulesDescIdx (opRulesIdx (builtinRegistry B) "differentiate") := by
      rw [hsplit]
      exact List.mem_append_left _ hp
    exact (perm_sortRulesDescIdx _).mem_iff.mp hm
  have hlr : listRules (builtinRegistry B) "differentiate"
      = P.map Prod.snd ++ diffConstantRule B :: S.map Prod.snd := by
    rw [listRules_eq_idx, hsplit]
    simp
  unfold selectRule
  rw [hlr]
  refine find_skip_then_hit ?_ hm2
  intro x hx
  rcases List.mem_map.mp hx with ⟨p, hp, hpx⟩
  rw [← hpx, hPeq p hp]
  exact hm1

theorem printSE_deriv_one (e : SExpr) (v : String) :
    printSE (SExpr.deriv e v 1) = "Derivative(" ++ printSE e ++ ", " ++ v ++ ")" := rfl

theorem printSE_deriv_ne_zero (e : SExpr) (v : String) :
    printSE (SExpr.deriv e v 1) ≠ "0" := by
  intro hc
  rw [printSE_deriv_one] at hc
  have hlen := congrArg String.length hc
  simp only [String.length_append] at hlen
  have e1 : ("Derivative(" : String).length = 11 := rfl
  have e2 : (", " : String).length = 2 := rfl
  have e3 : (")" : String).length = 1 := rfl
  have e4 : ("0" : String).length = 1 := rfl
  rw [e1, e2, e3, e4] at hlen
  omega

theorem diffConstant_apply_out (B : Backend) (p : SExpr) (v cur : String) (g : StepGraph)
    (h3 : B.sympify cur = some (SExpr.deriv p v 1)) (h2 : v ∉ freeSymbols p) :
    (diffConstantRule B).apply cur g =
      { graph := g, output := "0",
        explanation := "Derivative of a constant is 0.",
        deps := [],
        metadata := teacherMeta "Derivative of a constant is 0."
          "If a term does not depend on the variable, changing it cannot change the value, so the rate of change is 0." } := by
  simp only [diffConstantRule, h3, Option.some_bind, diffConstantRw_deriv p v h2]
  rfl

theorem run_differentiate_eq (B : Backend) (reg : Registry) (cfg : EngineConfig)
    (expression var : String) (mB : Option String) (p : SExpr)
    (hp : B.sympify expression = some p) :
    run B reg cfg "differentiate" expression var 1 mB
      = match runLoop B reg "differentiate" cfg.maxSteps 0
          { graph := [], current := printSE (SExpr.deriv p var 1), prevStep := none } with
        | .error e => .error e
        | .ok st => .ok { operation := "differentiate", input := expression,
                          output := (finalSimplify B st).2, graph := (finalSimplify B st).1 } := by
  have hmat : ("differentiate" : String) ∉ matrixOps := by decide
  simp only [run, if_neg hmat, eq_self_iff_true, if_true]
  rw [if_neg (show ¬ ((1 : Int) < 1) by decide), if_neg (show ¬ ((10 : Int) < 1) by decide)]
  simp only [hp]
  rfl

/-- C8: for an expression parsing to a tree with no free occurrence of the
differentiation variable (a constant with respect to it), a first-order
differentiate run over the builtin registry succeeds with output "0" and
its first recorded step is the `diff_constant` rule.  The parse/print
round-trip hypotheses pin down the backend behaviour the Python engine
obtains from SymPy on such inputs. -/
theorem c8_constant_derivative (B : Backend) (p : SExpr) (expression v : String)
    (h1 : B.sympify expression = some p)
    (h2 : v ∉ freeSymbols p)
    (h3 : B.sympify (printSE (SExpr.deriv p v 1)) = some (SExpr.deriv p v 1))
    (h4 : B.sympify "0" = some (SExpr.int 0))
    (h5 : B.simplifyE (SExpr.int 0) = SExpr.int 0) :
    ∃ res, run B (builtinRegistry B) {} "differentiate" expression v 1 none = .ok res ∧
      res.output = "0" ∧
      ∃ n rest, res.graph = n :: rest ∧ n.rule = "diff_constant" := by
  have hm1 := expandHigherOrder_no_match B p v (printSE (SExpr.deriv p v 1)) h3
  have hm2 := diffConstant_matches B p v (printSE (SExpr.deriv p v 1)) h3 h2
  have hsel := c8_select B (printSE (SExpr.deriv p v 1)) hm1 hm2
  have happ := diffConstant_apply_out B p v (printSE (SExpr.deriv p v 1)) [] h3 h2
  have hout : ((diffConstantRule B).apply (printSE (SExpr.deriv p v 1)) []).output
      ≠ printSE (SExpr.deriv p v 1) := by
    rw [happ]
    exact fun hc => printSE_deriv_ne_zero p v hc.symm
  have hnoop : metaNoop ((diffConstantRule B).apply (printSE (SExpr.deriv p v 1)) []).metadata
      = false := by
    rw [happ]
    rfl
  have hpo : B.sympify ((diffConstantRule B).apply (printSE (SExpr.deriv p v 1)) []).output
      = some (SExpr.int 0) := by
    rw [happ]
    exact h4
  have hpod : hasDeriv (SExpr.int 0) = false := rfl
  have hnode : validateStepNode (mkLoopNode (stepIdStr (0 + 1)) "differentiate"
      (diffConstantRule B).name (printSE (SExpr.deriv p v 1))
      ((diffConstantRule B).apply (printSE (SExpr.deriv p v 1)) []) none) = .ok () := rfl
  have hgval : validateStepGraph
      (((diffConstantRule B).apply (printSE (SExpr.deriv p v 1)) []).graph
        ++ [mkLoopNode (stepIdStr (0 + 1)) "differentiate" (diffConstantRule B).name
              (printSE (SExpr.deriv p v 1))
              ((diffConstantRule B).apply (printSE (SExpr.deriv p v 1)) []) none]) = .ok () := by
    rw [happ]
    rfl
  have hloop : runLoop B (builtinRegistry B) "differentiate" 64 0
      { graph := [], current := printSE (SExpr.deriv p v 1), prevStep := none }
      = .ok { graph := [{ id := stepIdStr (0 + 1), operation := "differentiate",
                          rule := "diff_constant", input := printSE (SExpr.deriv p v 1),
                          output := "0",
                          explanation := "Derivative of a constant is 0.",
                          dependencies := [],
                          metadata := teacherMeta "Derivative of a constant is 0."
                            "If a term does not depend on the variable, changing it cannot change the value, so the rate of change is 0." }],
              current := "0", prevStep := some (stepIdStr (0 + 1)) } := by
    have h64 : (64 : Nat) = 63 + 1 := rfl
    rw [h64]
    have hbrk := runLoop_resolved_break B (builtinRegistry B) "differentiate" 63 0
      { graph := [], current := printSE (SExpr.deriv p v 1), prevStep := none }
      (diffConstantRule B) (SExpr.int 0) hsel hout hnoop hpo hpod hnode hgval
    dsimp only at hbrk
    rw [hbrk, happ]
    rfl
  have hfin : finalSimplify B
      { graph := [{ id := stepIdStr (0 + 1), operation := "differentiate",
                    rule := "diff_constant", input := printSE (SExpr.deriv p v 1),
                    output := "0",
                    explanation := "Derivative of a constant is 0.",
                    dependencies := [],
                    metadata := teacherMeta "Derivative of a constant is 0."
                      "If a term does not depend on the variable, changing it cannot change the value, so the rate of change is 0." }],
        current := "0", prevStep := some (stepIdStr (0 + 1)) }
      = ([{ id := stepIdStr (0 + 1), operation := "differentiate",
            rule := "diff_constant", input := printSE (SExpr.deriv p v 1),
            output := "0",
            explanation := "Derivative of a constant is 0.",
            dependencies := [],
            metadata := teacherMeta "Derivative of a constant is 0."
              "If a term does not depend on the variable, changing it cannot change the value, so the rate of change is 0." }], "0") := by
    unfold finalSimplify
    simp only [h4]
    rw [if_neg (show ¬ (hasDeriv (SExpr.int 0) = true) by decide)]
    rw [h5]
    rw [if_pos (show printSE (SExpr.int 0) = "0" from rfl)]
  refine ⟨{ operation := "differentiate", input := expression, output := "0",
            graph := [{ id := stepIdStr (0 + 1), operation := "differentiate",
                        rule := "diff_constant", input := printSE (SExpr.deriv p v 1),
                        output := "0",
                        explanation := "Derivative of a constant is 0.",
                        dependencies := [],
                        metadata := teacherMeta "Derivative of a constant is 0."
                          "If a term does not depend on the variable, changing it cannot change the value, so the rate of change is 0." }] },
    ?_, rfl, _, [], rfl, rfl⟩
  rw [run_differentiate_eq B (builtinRegistry B) {} expression v none p h1]
  rw [show ({} : EngineConfig).maxSteps = 64 from rfl]
  rw [hloop]
  simp only []
  rw [hfin]

/-! ## Closed witnesses for the hypothesis-bearing claim theorems -/

/-- A concrete backend exhibiting the SymPy behaviour C8 assumes, on the
constant expression 5. -/
def c8B : Backend where
  sympify := fun s =>
    if s = "5" then some (SExpr.int 5)
    else if s = "Derivative(5, x)" then some (SExpr.deriv (SExpr.int 5) "x" 1)
    else if s = "0" then some (SExpr.int 0)
    else none
  simplifyE := fun e => e
  diffE := fun e _ _ => e
  ruleApply := fun _ s g => { graph := g, output := s, explanation := "", deps := [], metadata := [] }
  ruleMatches := fun _ _ => false

theorem c8_constant_derivative_witness :
    c8B.sympify "5" = some (SExpr.int 5) ∧
    ("x" ∉ freeSymbols (SExpr.int 5)) ∧
    (∃ res, run c8B (builtinRegistry c8B) {} "differentiate" "5" "x" 1 none = .ok res ∧
      res.output = "0" ∧ ∃ n rest, res.graph = n :: rest ∧ n.rule = "diff_constant") :=
  ⟨rfl, by decide,
    c8_constant_derivative c8B (SExpr.int 5) "5" "x" rfl (by decide) rfl rfl rfl⟩

theorem c1_iterative_graph_valid_witness :
    ("bogus" : String) ∉ matrixOps ∧
    validateStepGraph
      ({ operation := "bogus", input := "x", output := "x", graph := [] } : EngineResult).graph
      = .ok () :=
  ⟨by decide,
    c1_iterative_graph_valid trivialBackend [] {} "bogus" "x" "x" 1 none
      { operation := "bogus", input := "x", output := "x", graph := [] }
      (fun r hr => absurd hr (List.not_mem_nil r)) (by decide) rfl⟩

theorem c2_unknown_operation_returns_witness :
    ("bogus" : String) ∉ matrixOps ∧ ("bogus" : String) ≠ "differentiate" ∧
    run trivialBackend [] {} "bogus" "y" "x" 1 none =
      .ok { operation := "bogus", input := "y", output := "y", graph := [] } :=
  ⟨by decide, by decide,
    c2_unknown_operation_returns trivialBackend [] {} "bogus" "y" "x" 1 none
      (by decide) (by decide) (fun r hr => absurd hr (List.not_mem_nil r))⟩

theorem c3_validate_characterisation_witness :
    validateStepGraph [fwdNodeB] = .ok () :=
  (c3_validate_characterisation [fwdNodeB]).2
    (fun n hn => by rw [List.mem_singleton.mp hn]; rfl)
    (by decide)
    (fun n hn d hd => by
      rw [List.mem_singleton.mp hn] at hd
      exact absurd hd (List.not_mem_nil d))
    (fun x htx => by
      rcases Relation.TransGen.head'_iff.mp htx with ⟨b, hdep, _⟩
      rcases hdep with ⟨n, hn, _, hmem⟩
      rw [List.mem_singleton] at hn
      rw [hn] at hmem
      exact absurd hmem (List.not_mem_nil x))

theorem c4_rule_selection_priority_witness :
    (∃ L : List (Nat × Rule),
        L.map Prod.snd = listRules [] "op" ∧
        L.Perm (opRulesIdx [] "op") ∧
        L.Pairwise ruleOrd) ∧
    selectRule [] "op" "x" = (listRules [] "op").find? (fun r => r.matchFn "x") ∧
    (∀ r1 r2 : Rule, r1 ∈ ([] : Registry) → r1.operation = "op" → r1.matchFn "x" = true →
        selectRule [] "op" "x" = some r2 → r1.priority ≤ r2.priority) :=
  c4_rule_selection_priority [] "op" "x"

theorem c6_run_deterministic_witness :
    ([] : Registry) = [] ∧
    run trivialBackend [] {} "op" "x" "x" 1 none = run trivialBackend [] {} "op" "x" "x" 1 none :=
  ⟨rfl, c6_run_deterministic trivialBackend [] [] {} "op" "x" "x" 1 none rfl⟩

/-- A rule that matches everything and returns its input unchanged. -/
def noopRule : Rule where
  name := "nr"
  operation := "op"
  priority := 0
  matchFn := fun _ => true
  apply := fun s g => { graph := g, output := s, explanation := "", deps := [], metadata := [] }

theorem c7_noop_terminal_witness :
    selectRule [noopRule] "op" "x" = some noopRule ∧
    runLoop trivialBackend [noopRule] "op" (3 + 1) 0
        { graph := [], current := "x", prevStep := none }
      = .ok { graph := [], current := "x", prevStep := none } :=
  ⟨rfl, c7_noop_terminal trivialBackend [noopRule] "op" 3 0
    { graph := [], current := "x", prevStep := none } noopRule rfl rfl (Or.inl rfl)⟩

theorem c9_order_out_of_range_witness :
    ((11 : Int) < 1 ∨ (10 : Int) < 11) ∧
    run trivialBackend [] {} "differentiate" "x" "x" 11 none =
      .error (if (11 : Int) < 1 then "Order must be at least 1, got " ++ toString (11 : Int)
              else "Order must be at most 10, got " ++ toString (11 : Int)) :=
  ⟨Or.inr (by decide),
    c9_order_out_of_range trivialBackend [] {} "x" "x" 11 none (Or.inr (by decide))⟩

/-- The result of an unknown-operation run, used by the C10 witness. -/
def bogusRes : EngineResult where
  operation := "bogus"
  input := "z"
  output := "z"
  graph := []

theorem c10_chain_shape_witness :
    run trivialBackend [] {} "bogus" "z" "x" 1 none = .ok bogusRes ∧
    (bogusRes.graph.map (fun n => n.id)
        = (List.range' 1 bogusRes.graph.length).map stepIdStr ∧
      bogusRes.graph.map (fun n => n.dependencies)
        = (List.range' 1 bogusRes.graph.length).map chainDeps) :=
  ⟨rfl,
    c10_chain_shape trivialBackend [] {} "bogus" "z" "x" 1 none bogusRes
      (fun r hr => absurd hr (List.not_mem_nil r))
      (fun r hr => absurd hr (List.not_mem_nil r))
      (by decide) rfl⟩

theorem c5_loop_bounded_witness :
    ({} : EngineConfig).maxSteps = 64 ∧
    ({ graph := [], current := "x", prevStep := none } : LoopState).graph.length
      ≤ ({ graph := [], current := "x", prevStep := none } : LoopState).graph.length + 2 :=
  ⟨c5_loop_bounded.1,
    c5_loop_bounded.2 trivialBackend [] "op" 2 0
      { graph := [], current := "x", prevStep := none }
      { graph := [], current := "x", prevStep := none }
      (fun r hr _ _ => absurd hr (List.not_mem_nil r))
      (runLoop_sel_none trivialBackend [] "op" 2 0
        { graph := [], current := "x", prevStep := none } rfl)⟩

end Calcora
